import Mathlib

/-!
A shallow embedding of `main.go` (multi-client chat server).

The program has two kinds of sequential code that talk over channels:

* `Server.Run`, the coordinator: a `select` loop owning `conns : map[Client]bool`;
* `handleRequest`, one per accepted connection: a read loop that writes to its own
  connection and sends on the server's channels.

Both are embedded as functions from the sequence of things they receive to the
sequence of things they do.  Conventions:

* a Go `string` is a list of code points (`Str`); the input chunks are taken to be
  valid UTF-8, on which the byte-level `==`, `HasPrefix` and `Split` of Go agree with
  their code-point versions here;
* a `net.Conn` is an interface value compared by identity: a natural number names it;
* `conns` is listed by its keys, in the order `range` visits them.  A Go map holds a
  key once and fixes no order, so the results about `Run` are stated for every list.
-/

namespace Chat

/-- A Go string, as its sequence of code points. -/
abbrev Str := List Char

/-- A transport handle (`net.Conn`), compared by identity. -/
abbrev NetConn := Nat

/-- The struct `Client`: Go compares two values field by field. -/
structure Client where
  Conn : NetConn
  Nickname : Str
deriving DecidableEq, Repr

/-- The struct `Message`. -/
structure Message where
  Client : Client
  Msg : Str
deriving DecidableEq, Repr

/-- The function `NewClient`. -/
def NewClient (conn : NetConn) (nickname : Str) : Client :=
  ⟨conn, nickname⟩

/-- The function `newMessage`. -/
def newMessage (client : Client) (msg : Str) : Message :=
  ⟨client, msg⟩

/-- A value travelling on one of the three channels of `Server` that `Run` selects on. -/
inductive Event where
  | register (client : Client)
  | unregister (client : Client)
  | broadcast (msg : Message)
deriving DecidableEq, Repr

/-- What the coordinator does to a transport handle: `Conn.Write` (through
`Client.Write`, which drops the result) and `Conn.Close`. -/
inductive ConnOp where
  | Write (conn : NetConn) (data : Str)
  | Close (conn : NetConn)
deriving DecidableEq, Repr

/-! ## The standard-library functions the program calls -/

/-- Go `unicode.IsSpace`: the Latin-1 cases of its `switch`, then the table `White_Space`. -/
def isSpace (r : Char) : Bool :=
  let n := r.toNat
  (0x09 ≤ n && n ≤ 0x0d) || n == 0x20 || n == 0x85 || n == 0xA0 || n == 0x1680 ||
    (0x2000 ≤ n && n ≤ 0x200a) || n == 0x2028 || n == 0x2029 || n == 0x202f ||
    n == 0x205f || n == 0x3000

/-- Go `strings.TrimSpace`: the string without its leading and trailing white space. -/
def TrimSpace (s : Str) : Str :=
  (s.dropWhile isSpace).rdropWhile isSpace

/-- Go `strings.HasPrefix s p`. -/
def HasPrefix (s p : Str) : Bool :=
  p.isPrefixOf s

/-- The pieces of `s` between its characters that satisfy `sep`, empty pieces
included: one more than there are such characters. -/
def splitWhere (sep : Char → Bool) : Str → List Str
  | [] => [[]]
  | c :: cs =>
    if sep c then [] :: splitWhere sep cs
    else
      match splitWhere sep cs with
      | [] => [[c]]
      | piece :: pieces => (c :: piece) :: pieces

/-- Go `strings.Split s sep` for a separator of one character: the pieces of `s`
between the occurrences of `sep`, one more than there are occurrences. -/
def Split (s : Str) (sep : Char) : List Str :=
  splitWhere (fun c => decide (c = sep)) s

/-! ## The coordinator, `Server.Run` -/

/-- The keys of `conns : map[Client]bool`, in the order `range` visits them. -/
abbrev Registry := List Client

/-- The statement `conns[client] = true`. -/
def mapStore (conns : Registry) (client : Client) : Registry :=
  if client ∈ conns then conns else conns ++ [client]

/-- The statement `delete(conns, client)`. -/
def mapDelete (conns : Registry) (client : Client) : Registry :=
  conns.filter (fun key => key ≠ client)

/-- The loop `for client := range conns` of the broadcast case, with its `continue`. -/
def rangeWrite (msg : Message) : List Client → List ConnOp
  | [] => []
  | client :: rest =>
    if client.Conn = msg.Client.Conn then rangeWrite msg rest
    else ConnOp.Write client.Conn msg.Msg :: rangeWrite msg rest

/-- One turn of the `select` of `Run`: the map afterwards and what was done to the
transport handles, in order. -/
def Run.select (conns : Registry) : Event → Registry × List ConnOp
  | .register client => (mapStore conns client, [])
  | .unregister client =>
    if client ∈ conns then (mapDelete conns client, [ConnOp.Close client.Conn])
    else (conns, [])
  | .broadcast msg => (conns, rangeWrite msg conns)

/-- The `for` loop of `Run` over the received values in order, from a given map. -/
def Run.loop (conns : Registry) : List Event → Registry × List ConnOp
  | [] => (conns, [])
  | e :: es =>
    let r := Run.select conns e
    let r' := Run.loop r.1 es
    (r'.1, r.2 ++ r'.2)

/-- The method `Server.Run`: the loop started on `make(map[Client]bool)`. -/
def Run (events : List Event) : Registry × List ConnOp :=
  Run.loop [] events

/-! ## The session, `handleRequest` -/

/-- What `client.Conn.Read` gave: `reqLen` bytes and no error, or an error. -/
inductive ReadResult where
  | data (buf : Str)
  | err
deriving DecidableEq, Repr

/-- What a session does: `client.Write` on its own connection, or a send on a channel
of the server. -/
inductive Action where
  | Write (data : Str)
  | Send (e : Event)
deriving DecidableEq, Repr

/-- The state of a session: the value of `*client`, what it did so far, and whether
the function has returned. -/
structure Session where
  client : Client
  trace : List Action
  returned : Bool
deriving DecidableEq, Repr

/-- One pass through the body of the `for` loop of `handleRequest`, after a read
without error of `buf[:reqLen]`; `returned` tells `return` from `continue`. -/
def loopBody (client : Client) (buf : Str) : Session :=
  let message := TrimSpace buf
  if message = "/exit".toList then
    ⟨client,
      [.Send (.broadcast (newMessage client (client.Nickname ++ " disconnected\n".toList))),
       .Write "Goodbye!\n".toList],
      true⟩
  else if HasPrefix message "/nick".toList then
    match Split message ' ' with
    | _ :: name :: _ =>
      let oldNick := client.Nickname
      let client' : Client := ⟨client.Conn, name⟩
      ⟨client',
        [.Write ("Changed nickname from ".toList ++ oldNick ++ " to ".toList ++ name ++ "\n".toList),
         .Send (.broadcast (newMessage client'
           (oldNick ++ " changed nickname to ".toList ++ name ++ "\n".toList)))],
        false⟩
    | _ => ⟨client, [.Write "Usage: /nick <name>\n".toList], false⟩
  else
    ⟨client,
      [.Send (.broadcast (newMessage client
        (client.Nickname ++ ": ".toList ++ message ++ "\n".toList)))],
      false⟩

/-- The `for` loop of `handleRequest` on the results of its reads, in order.  With no
result left the session is blocked in `Read` and has not returned. -/
def readLoop (client : Client) : List ReadResult → Session
  | [] => ⟨client, [], false⟩
  | .err :: _ => ⟨client, [], true⟩
  | .data buf :: rest =>
    let s := loopBody client buf
    if s.returned then s
    else
      let s' := readLoop s.client rest
      ⟨s'.client, s.trace ++ s'.trace, s'.returned⟩

/-- The three writes that open `handleRequest`. -/
def greeting : List Action :=
  [.Write "Hello from server\n".toList,
   .Write "Type /exit to quit\n".toList,
   .Write "Type /nick <name> to change your name\n".toList]

/-- The function `handleRequest`: the greeting, the loop, and on return the deferred
send of `*client`, read at that moment, on `unregister`. -/
def handleRequest (client : Client) (reads : List ReadResult) : Session :=
  let s := readLoop client reads
  ⟨s.client,
    greeting ++ s.trace ++ (if s.returned then [.Send (.unregister s.client)] else []),
    s.returned⟩

/-- The values a session put on the channels, in order. -/
def sent : List Action → List Event
  | [] => []
  | .Send e :: rest => e :: sent rest
  | .Write _ :: rest => sent rest

/-- What a session wrote to its own connection, in order. -/
def written : List Action → List Str
  | [] => []
  | .Write d :: rest => d :: written rest
  | .Send _ :: rest => written rest

/-- The body of the accept loop of `main` for one accepted `conn`: the client it
builds and the two sends it makes before starting `handleRequest`. -/
def accept (conn : NetConn) : Client × List Event :=
  let client := NewClient conn "Anonymous".toList
  (client,
    [.register client,
     .broadcast (newMessage client (client.Nickname ++ " connected\n".toList))])

/-- Every value sent for one accepted connection, in order: the two of `main`, then
those of its `handleRequest`. -/
def connectionEvents (conn : NetConn) (reads : List ReadResult) : List Event :=
  (accept conn).2 ++ sent (handleRequest (accept conn).1 reads).trace

/-! ## The coordinator with the results of its transport calls -/

/-- What a call of `Conn.Write` or `Conn.Close` returns: a byte count (zero for
`Close`) and whether the error is not `nil`. -/
structure IOResult where
  n : Nat
  failed : Bool
deriving DecidableEq, Repr

/-- The broadcast loop of `Run` next to its transport: `outcome k` is what the call
number `k` returns.  `Client.Write` has no result and drops what `Conn.Write` gave it,
so the loop only passes the count along; the list pairs each call with its result. -/
def rangeWriteOn (outcome : Nat → IOResult) (msg : Message) :
    Nat → List Client → List (ConnOp × IOResult)
  | _, [] => []
  | k, client :: rest =>
    if client.Conn = msg.Client.Conn then rangeWriteOn outcome msg k rest
    else (ConnOp.Write client.Conn msg.Msg, outcome k) :: rangeWriteOn outcome msg (k + 1) rest

/-- One turn of the `select` of `Run` next to its transport: the map afterwards and
each transport call with what it returned. -/
def Run.selectOn (outcome : Nat → IOResult) (conns : Registry) :
    Event → Registry × List (ConnOp × IOResult)
  | .register client => (mapStore conns client, [])
  | .unregister client =>
    if client ∈ conns then (mapDelete conns client, [(ConnOp.Close client.Conn, outcome 0)])
    else (conns, [])
  | .broadcast msg => (conns, rangeWriteOn outcome msg 0 conns)

/-! ## The words of the specification -/

/-- The whitespace-separated tokens of `s`, after the specification's "split on
whitespace", for a notion `ws` of white space: the maximal runs of characters that are
not white space (what Go `strings.Fields` returns when `ws` is `unicode.IsSpace`).  The
program does not compute them. -/
def whitespaceTokens (ws : Char → Bool) (s : Str) : List Str :=
  (splitWhere ws s).filter (fun piece => decide (piece ≠ []))

/-- The narrow reading of white space in the specification: "spaces or tabs". -/
def spaceOrTab (c : Char) : Bool :=
  c == ' ' || c == '\t'

/-- The transport handle that a value on a channel carries. -/
def Event.conn : Event → NetConn
  | .register client => client.Conn
  | .unregister client => client.Conn
  | .broadcast msg => msg.Client.Conn

/-- The inputs a session gets to interpret as commands or chat: those read before the
first failed read and before the first "/exit". -/
def interpreted : List ReadResult → List Str
  | [] => []
  | .err :: _ => []
  | .data buf :: rest =>
    if TrimSpace buf = "/exit".toList then [] else buf :: interpreted rest

/-- A "successful rename", in the words of the specification: the name asked for by an
input whose trimmed form starts with "/nick" and has a second piece. -/
def renameTarget (buf : Str) : Option Str :=
  if HasPrefix (TrimSpace buf) "/nick".toList then
    match Split (TrimSpace buf) ' ' with
    | _ :: name :: _ => some name
    | _ => none
  else none

/-- The target of the last successful rename among the interpreted inputs of a
session that started as `start`, and `start` when there is none. -/
def lastRename (start : Str) (reads : List ReadResult) : Str :=
  ((interpreted reads).filterMap renameTarget).getLast?.getD start

/-! ## Facts about the coordinator -/

/-- The broadcast loop visits the map once and writes to the entries it does not skip. -/
theorem rangeWrite_eq (msg : Message) (conns : List Client) :
    rangeWrite msg conns
      = (conns.filter (fun r => decide (r.Conn ≠ msg.Client.Conn))).map
          (fun r => ConnOp.Write r.Conn msg.Msg) := by
  induction conns with
  | nil => rfl
  | cons client rest ih =>
    by_cases h : client.Conn = msg.Client.Conn
    · simp [rangeWrite, h, ih]
    · simp [rangeWrite, h, ih]

/-- How often the broadcast loop writes a given text to a given handle. -/
theorem rangeWrite_count (msg : Message) (conns : List Client) (h : NetConn) (d : Str) :
    (rangeWrite msg conns).count (ConnOp.Write h d)
      = if h ≠ msg.Client.Conn ∧ d = msg.Msg then conns.countP (fun r => decide (r.Conn = h))
        else 0 := by
  induction conns with
  | nil => simp [rangeWrite]
  | cons client rest ih =>
    by_cases hc : client.Conn = msg.Client.Conn
    · have hskip : rangeWrite msg (client :: rest) = rangeWrite msg rest := by
        simp [rangeWrite, hc]
      rw [hskip, ih]
      by_cases hh : h ≠ msg.Client.Conn ∧ d = msg.Msg
      · have hne : ¬ client.Conn = h := fun e => hh.1 (e ▸ hc)
        simp [hh, List.countP_cons, hne]
      · simp [hh]
    · have hstep : rangeWrite msg (client :: rest)
          = ConnOp.Write client.Conn msg.Msg :: rangeWrite msg rest := by
        simp [rangeWrite, hc]
      rw [hstep, List.count_cons, ih]
      by_cases hh : h ≠ msg.Client.Conn ∧ d = msg.Msg
      · by_cases he : client.Conn = h
        · simp [hh, List.countP_cons, he, hh.2]
        · simp [hh, List.countP_cons, he]
      · have hne : ¬ (client.Conn = h ∧ msg.Msg = d) := by
          rintro ⟨e1, e2⟩
          exact hh ⟨fun e => hc (e1.trans e), e2.symm⟩
        simp [hh, hne]

/-- Deleting a key leaves no copy of it. -/
theorem not_mem_mapDelete (conns : Registry) (client : Client) :
    client ∉ mapDelete conns client := by
  simp [mapDelete]

/-- Deleting an absent key changes nothing. -/
theorem mapDelete_of_not_mem (conns : Registry) (client : Client) (h : client ∉ conns) :
    mapDelete conns client = conns := by
  unfold mapDelete
  rw [List.filter_eq_self]
  intro a ha
  have : a ≠ client := fun e => h (e ▸ ha)
  simpa using this

/-! ## The coordinator: leave and broadcast -/

/-- C1 (the code at the failing input): with the one entry that `main` registered for
handle 1 in the map, the leave that the session of handle 1 sends after it renamed
itself to "Alice" finds no key equal to it: the entry with handle 1 stays and no
handle is closed. -/
theorem C1_leave_of_renamed_client_is_dropped :
    Run.select (Run [.register (NewClient 1 "Anonymous".toList)]).1
        (.unregister ⟨1, "Alice".toList⟩)
      = ([⟨1, "Anonymous".toList⟩], []) := by
  decide

/-- C2 (the code at the failing input): the session of handle 1 reads "/nick Alice",
"hello" and "/exit" and returns; once `Run` has taken, in order, every value sent for
that connection, its entry is still in the map and its handle was never closed. -/
theorem C2_renamed_session_stays_registered :
    (handleRequest (accept 1).1
        [.data "/nick Alice".toList, .data "hello".toList, .data "/exit".toList]).returned
      = true ∧
    connectionEvents 1 [.data "/nick Alice".toList, .data "hello".toList, .data "/exit".toList]
      = [.register ⟨1, "Anonymous".toList⟩,
         .broadcast ⟨⟨1, "Anonymous".toList⟩, "Anonymous connected\n".toList⟩,
         .broadcast ⟨⟨1, "Alice".toList⟩, "Anonymous changed nickname to Alice\n".toList⟩,
         .broadcast ⟨⟨1, "Alice".toList⟩, "Alice: hello\n".toList⟩,
         .broadcast ⟨⟨1, "Alice".toList⟩, "Alice disconnected\n".toList⟩,
         .unregister ⟨1, "Alice".toList⟩] ∧
    Run (connectionEvents 1
        [.data "/nick Alice".toList, .data "hello".toList, .data "/exit".toList])
      = ([⟨1, "Anonymous".toList⟩], []) := by
  decide

/-- C3: handling a broadcast, `Run` writes the text of the message once for each entry
of the map whose handle differs from the handle of the source, in the order the map is
visited, and does nothing else: no write goes to the handle of the source, none carries
another text, nothing is closed and the map is unchanged.  A handle other than the
source's is written to as often as it has entries.  The nicknames in the entries and in
the message play no part, and visiting the map in another order permutes the writes. -/
theorem C3_broadcast_fanout (R : Registry) (msg : Message) :
    Run.select R (.broadcast msg)
      = (R, (R.filter (fun r => decide (r.Conn ≠ msg.Client.Conn))).map
              (fun r => ConnOp.Write r.Conn msg.Msg)) ∧
    (∀ h d, (Run.select R (.broadcast msg)).2.count (ConnOp.Write h d)
      = if h ≠ msg.Client.Conn ∧ d = msg.Msg then R.countP (fun r => decide (r.Conn = h))
        else 0) ∧
    (∀ d, ConnOp.Write msg.Client.Conn d ∉ (Run.select R (.broadcast msg)).2) ∧
    (∀ h, ConnOp.Close h ∉ (Run.select R (.broadcast msg)).2) ∧
    (∀ (R' : Registry) (msg' : Message), R'.map (fun r => r.Conn) = R.map (fun r => r.Conn) →
      msg'.Client.Conn = msg.Client.Conn → msg'.Msg = msg.Msg →
      (Run.select R' (.broadcast msg')).2 = (Run.select R (.broadcast msg)).2) ∧
    (∀ R' : Registry, R.Perm R' →
      (Run.select R (.broadcast msg)).2.Perm (Run.select R' (.broadcast msg)).2) := by
  refine ⟨?_, ?_, ?_, ?_, ?_, ?_⟩
  · simp [Run.select, rangeWrite_eq]
  · intro h d
    simpa [Run.select] using rangeWrite_count msg R h d
  · intro d hmem
    have hcount := rangeWrite_count msg R msg.Client.Conn d
    have hpos : 0 < (rangeWrite msg R).count (ConnOp.Write msg.Client.Conn d) :=
      List.count_pos_iff.mpr (by simpa [Run.select] using hmem)
    simp at hcount
    omega
  · intro h hmem
    simp [Run.select, rangeWrite_eq] at hmem
  · intro R' msg' hR hc hm
    simp only [Run.select, rangeWrite_eq, hc, hm]
    have key : ∀ (l : List Client) (src : NetConn) (text : Str),
        (l.filter (fun r => decide (r.Conn ≠ src))).map (fun r => ConnOp.Write r.Conn text)
          = ((l.map (fun r => r.Conn)).filter (fun h => decide (h ≠ src))).map
              (fun h => ConnOp.Write h text) := by
      intro l src text
      induction l with
      | nil => rfl
      | cons a l ih =>
        by_cases ha : a.Conn = src
        · simpa [ha] using ih
        · simpa [ha] using ih
    rw [key R', key R, hR]
  · intro R' hperm
    simp only [Run.select, rangeWrite_eq]
    exact (hperm.filter _).map _

/-- C3 at a concrete map: handles 1 and 2 joined, handle 2 named differently in the
message, the map visited in either order. -/
theorem C3_broadcast_fanout_witness :
    (Run.select [⟨1, "Anonymous".toList⟩, ⟨2, "Anonymous".toList⟩]
        (.broadcast ⟨⟨2, "Bob".toList⟩, "Bob: hi\n".toList⟩)).2.Perm
      (Run.select [⟨2, "Anonymous".toList⟩, ⟨1, "Anonymous".toList⟩]
        (.broadcast ⟨⟨2, "Bob".toList⟩, "Bob: hi\n".toList⟩)).2 ∧
    (Run.select [⟨1, "Anonymous".toList⟩, ⟨2, "Anonymous".toList⟩]
        (.broadcast ⟨⟨2, "Bob".toList⟩, "Bob: hi\n".toList⟩)).2
      = [ConnOp.Write 1 "Bob: hi\n".toList] :=
  ⟨(C3_broadcast_fanout [⟨1, "Anonymous".toList⟩, ⟨2, "Anonymous".toList⟩]
      ⟨⟨2, "Bob".toList⟩, "Bob: hi\n".toList⟩).2.2.2.2.2
      [⟨2, "Anonymous".toList⟩, ⟨1, "Anonymous".toList⟩] (List.Perm.swap _ _ _),
    by decide⟩

/-- C4: a leave for a client that is not a key of the map (in particular one whose
handle no entry carries) changes nothing, closes nothing and writes nothing; two
leaves for the same client in a row give the map that one gives, the second does
nothing, and together they close the handle of the client at most once, and no other. -/
theorem C4_leave_idempotent (R : Registry) (c : Client) :
    (c ∉ R → Run.select R (.unregister c) = (R, [])) ∧
    ((∀ r ∈ R, r.Conn ≠ c.Conn) → Run.select R (.unregister c) = (R, [])) ∧
    (Run.loop R [.unregister c, .unregister c]).1 = (Run.select R (.unregister c)).1 ∧
    Run.select (Run.select R (.unregister c)).1 (.unregister c)
      = ((Run.select R (.unregister c)).1, []) ∧
    (Run.loop R [.unregister c, .unregister c]).2 = (Run.select R (.unregister c)).2 ∧
    (Run.loop R [.unregister c, .unregister c]).2.count (ConnOp.Close c.Conn) ≤ 1 ∧
    (∀ op ∈ (Run.loop R [.unregister c, .unregister c]).2, op = ConnOp.Close c.Conn) := by
  have habsent : ∀ R' : Registry, c ∉ R' → Run.select R' (.unregister c) = (R', []) := by
    intro R' h
    simp [Run.select, h]
  have hafter : c ∉ (Run.select R (.unregister c)).1 := by
    by_cases h : c ∈ R
    · simpa [Run.select, h] using not_mem_mapDelete R c
    · simp [Run.select, h]
  have hsecond := habsent _ hafter
  have hloop : Run.loop R [.unregister c, .unregister c]
      = ((Run.select R (.unregister c)).1, (Run.select R (.unregister c)).2) := by
    simp [Run.loop, hsecond]
  refine ⟨habsent R, ?_, ?_, hsecond, ?_, ?_, ?_⟩
  · intro h
    exact habsent R (fun hc => h c hc rfl)
  · rw [hloop]
  · rw [hloop]
  · rw [hloop]
    by_cases h : c ∈ R
    · simp [Run.select, h]
    · simp [Run.select, h]
  · rw [hloop]
    by_cases h : c ∈ R
    · simp [Run.select, h]
    · simp [Run.select, h]

/-- C4 at a concrete map: the leave of a client whose handle is not registered, and
that of a registered handle under another nickname. -/
theorem C4_leave_idempotent_witness :
    Run.select [⟨1, "Anonymous".toList⟩] (.unregister ⟨2, "Anonymous".toList⟩)
      = ([⟨1, "Anonymous".toList⟩], []) ∧
    Run.select [⟨1, "Anonymous".toList⟩] (.unregister ⟨1, "Bob".toList⟩)
      = ([⟨1, "Anonymous".toList⟩], []) :=
  ⟨(C4_leave_idempotent [⟨1, "Anonymous".toList⟩] ⟨2, "Anonymous".toList⟩).2.1 (by decide),
   (C4_leave_idempotent [⟨1, "Anonymous".toList⟩] ⟨1, "Bob".toList⟩).1 (by decide)⟩

/-! ## Facts about the library functions -/

/-- Splitting always gives a piece. -/
theorem splitWhere_ne_nil (sep : Char → Bool) (s : Str) : splitWhere sep s ≠ [] := by
  cases s with
  | nil => simp [splitWhere]
  | cons c cs =>
    by_cases h : sep c = true
    · simp [splitWhere, h]
    · cases hs : splitWhere sep cs <;> simp [splitWhere, h, hs]

/-- A string without separator is its own single piece. -/
theorem splitWhere_of_no_sep (sep : Char → Bool) (s : Str) (h : ∀ c ∈ s, sep c = false) :
    splitWhere sep s = [s] := by
  induction s with
  | nil => rfl
  | cons c cs ih =>
    have hc : sep c = false := h c (List.mem_cons_self _ _)
    have hcs := ih (fun d hd => h d (List.mem_cons_of_mem _ hd))
    simp [splitWhere, hc, hcs]

/-- The first piece ends at the first separator. -/
theorem splitWhere_append_cons (sep : Char → Bool) (a : Str) (x : Char) (b : Str)
    (ha : ∀ c ∈ a, sep c = false) (hx : sep x = true) :
    splitWhere sep (a ++ x :: b) = a :: splitWhere sep b := by
  induction a with
  | nil => simp [splitWhere, hx]
  | cons c cs ih =>
    have hc : sep c = false := ha c (List.mem_cons_self _ _)
    have hcs := ih (fun d hd => ha d (List.mem_cons_of_mem _ hd))
    simp [splitWhere, hc, hcs]

/-- No piece holds a separator. -/
theorem splitWhere_mem (sep : Char → Bool) (s : Str) :
    ∀ piece ∈ splitWhere sep s, ∀ c ∈ piece, sep c = false := by
  induction s with
  | nil => simp [splitWhere]
  | cons c cs ih =>
    by_cases h : sep c = true
    · intro piece hp
      simp [splitWhere, h] at hp
      rcases hp with rfl | hp
      · simp
      · exact ih piece hp
    · have hc : sep c = false := by simpa using h
      cases hs : splitWhere sep cs with
      | nil => exact absurd hs (splitWhere_ne_nil sep cs)
      | cons p ps =>
        rw [hs] at ih
        intro piece hp
        simp [splitWhere, hc, hs] at hp
        rcases hp with rfl | hp
        · intro d hd
          rcases List.mem_cons.mp hd with rfl | hd
          · exact hc
          · exact ih p (List.mem_cons_self _ _) d hd
        · exact ih piece (List.mem_cons_of_mem _ hp)

/-- A string with no token is all white space. -/
theorem whitespaceTokens_eq_nil (ws : Char → Bool) (s : Str)
    (h : whitespaceTokens ws s = []) :
    ∀ c ∈ s, ws c = true := by
  induction s with
  | nil => simp
  | cons c cs ih =>
    by_cases hc : ws c = true
    · have hcs : whitespaceTokens ws cs = [] := by
        simpa [whitespaceTokens, splitWhere, hc] using h
      intro d hd
      rcases List.mem_cons.mp hd with rfl | hd
      · exact hc
      · exact ih hcs d hd
    · exfalso
      cases hs : splitWhere ws cs with
      | nil => exact splitWhere_ne_nil ws cs hs
      | cons p ps => simp [whitespaceTokens, splitWhere, hc, hs] at h

/-- The tokens of a string that starts with a run of non-space characters, then a
white-space character. -/
theorem whitespaceTokens_append_cons (ws : Char → Bool) (a : Str) (x : Char) (b : Str)
    (hne : a ≠ []) (ha : ∀ c ∈ a, ws c = false) (hx : ws x = true) :
    whitespaceTokens ws (a ++ x :: b) = a :: whitespaceTokens ws b := by
  simp [whitespaceTokens, splitWhere_append_cons ws a x b ha hx, hne]

/-- A token is not empty and holds no white space. -/
theorem whitespaceTokens_mem (ws : Char → Bool) (s : Str) (tok : Str)
    (h : tok ∈ whitespaceTokens ws s) :
    tok ≠ [] ∧ ∀ c ∈ tok, ws c = false := by
  simp only [whitespaceTokens, List.mem_filter, decide_eq_true_eq] at h
  exact ⟨h.2, splitWhere_mem ws s tok h.1⟩

/-- The last character of a trimmed string is not white space. -/
theorem TrimSpace_getLast (s : Str) (h : TrimSpace s ≠ []) :
    isSpace ((TrimSpace s).getLast h) = false := by
  have := List.rdropWhile_last_not isSpace (s.dropWhile isSpace) h
  simpa [TrimSpace] using this

/-- Trimming leaves alone a string that neither starts nor ends with white space. -/
theorem TrimSpace_eq_self (c : Char) (cs : Str) (hc : isSpace c = false)
    (hlast : isSpace ((c :: cs).getLast (List.cons_ne_nil c cs)) = false) :
    TrimSpace (c :: cs) = c :: cs := by
  have h1 : (c :: cs).dropWhile isSpace = c :: cs := by simp [List.dropWhile, hc]
  unfold TrimSpace
  rw [h1, List.rdropWhile_eq_self_iff]
  intro _
  simpa using hlast

/-- Spaces and tabs are white space. -/
theorem spaceOrTab_isSpace (ch : Char) (h : spaceOrTab ch = true) : isSpace ch = true := by
  have hc : ch = ' ' ∨ ch = '\t' := by simpa [spaceOrTab] using h
  rcases hc with rfl | rfl <;> decide

/-- A string that starts with "/nick" is not "/exit". -/
theorem ne_exit_of_HasPrefix_nick (m : Str) (h : HasPrefix m "/nick".toList = true) :
    m ≠ "/exit".toList := by
  intro e
  subst e
  revert h
  decide

/-- A string with a white-space character splits at the first one. -/
theorem exists_first_space (ws : Char → Bool) (s : Str) (h : ∃ x ∈ s, ws x = true) :
    ∃ a x b, s = a ++ x :: b ∧ (∀ c ∈ a, ws c = false) ∧ ws x = true := by
  induction s with
  | nil => simp at h
  | cons c cs ih =>
    by_cases hc : ws c = true
    · exact ⟨[], c, cs, rfl, by simp, hc⟩
    · obtain ⟨x, hx, hsp⟩ := h
      have hxcs : x ∈ cs := by
        rcases List.mem_cons.mp hx with rfl | hx
        · exact absurd hsp hc
        · exact hx
      obtain ⟨a, y, b, hab, ha, hy⟩ := ih ⟨x, hxcs, hsp⟩
      refine ⟨c :: a, y, b, by simp [hab], ?_, hy⟩
      intro d hd
      rcases List.mem_cons.mp hd with rfl | hd
      · simpa using hc
      · exact ha d hd

/-- A string that starts and ends with a non-space character and has fewer than two
tokens holds no white space. -/
theorem no_space_of_tokens_lt_two (ws : Char → Bool) (s : Str)
    (hhead : ∃ c cs, s = c :: cs ∧ ws c = false)
    (hend : ∀ h : s ≠ [], ws (s.getLast h) = false)
    (htok : (whitespaceTokens ws s).length < 2) :
    ∀ d ∈ s, ws d = false := by
  obtain ⟨c, cs, rfl, hc⟩ := hhead
  have hlast := hend (List.cons_ne_nil c cs)
  by_contra hcon
  have hex : ∃ x ∈ c :: cs, ws x = true := by
    by_contra hno
    apply hcon
    intro d hd
    by_contra hd'
    exact hno ⟨d, hd, by simpa using hd'⟩
  obtain ⟨a, x, b, hab, ha, hx⟩ := exists_first_space ws (c :: cs) hex
  have hane : a ≠ [] := by
    rintro rfl
    simp only [List.nil_append, List.cons.injEq] at hab
    rw [← hab.1, hc] at hx
    exact absurd hx (by simp)
  have htoks := whitespaceTokens_append_cons ws a x b hane ha hx
  rw [hab, htoks] at htok
  have hbnil : whitespaceTokens ws b = [] := by
    cases hb : whitespaceTokens ws b with
    | nil => rfl
    | cons t ts =>
      exfalso
      rw [hb] at htok
      simp only [List.length_cons] at htok
      omega
  have hball := whitespaceTokens_eq_nil ws b hbnil
  have hmem : (c :: cs).getLast (List.cons_ne_nil c cs) ∈ x :: b := by
    have h1 : (a ++ x :: b).getLast (by simp) = (x :: b).getLast (List.cons_ne_nil x b) :=
      List.getLast_append_right (List.cons_ne_nil x b)
    have h2 : (c :: cs).getLast (List.cons_ne_nil c cs) = (a ++ x :: b).getLast (by simp) := by
      simp only [hab]
    rw [h2, h1]
    exact List.getLast_mem _
  have hsp : ws ((c :: cs).getLast (List.cons_ne_nil c cs)) = true := by
    rcases List.mem_cons.mp hmem with h | h
    · rw [h]; exact hx
    · exact hball _ h
  rw [hlast] at hsp
  exact absurd hsp (by simp)

/-! ## Facts about the session -/

/-- The body of the loop on "/exit". -/
theorem loopBody_exit (c : Client) (buf : Str) (h : TrimSpace buf = "/exit".toList) :
    loopBody c buf
      = ⟨c, [.Send (.broadcast ⟨c, c.Nickname ++ " disconnected\n".toList⟩),
             .Write "Goodbye!\n".toList], true⟩ := by
  simp [loopBody, h, newMessage]

/-- The body of the loop on a "/nick" line that splits in two pieces or more. -/
theorem loopBody_rename (c : Client) (buf first name : Str) (more : List Str)
    (hp : HasPrefix (TrimSpace buf) "/nick".toList = true)
    (hs : Split (TrimSpace buf) ' ' = first :: name :: more) :
    loopBody c buf
      = ⟨⟨c.Conn, name⟩,
          [.Write ("Changed nickname from ".toList ++ c.Nickname ++ " to ".toList ++ name
              ++ "\n".toList),
           .Send (.broadcast ⟨⟨c.Conn, name⟩,
              c.Nickname ++ " changed nickname to ".toList ++ name ++ "\n".toList⟩)],
          false⟩ := by
  have hne := ne_exit_of_HasPrefix_nick _ hp
  simp only [loopBody, hne, hp, hs, newMessage, if_false, if_true]

/-- The body of the loop on a "/nick" line that is a single piece. -/
theorem loopBody_usage (c : Client) (buf piece : Str)
    (hp : HasPrefix (TrimSpace buf) "/nick".toList = true)
    (hs : Split (TrimSpace buf) ' ' = [piece]) :
    loopBody c buf = ⟨c, [.Write "Usage: /nick <name>\n".toList], false⟩ := by
  have hne := ne_exit_of_HasPrefix_nick _ hp
  simp only [loopBody, hne, hp, hs, if_false, if_true]

/-- The body of the loop on any other line. -/
theorem loopBody_chat (c : Client) (buf : Str) (hne : TrimSpace buf ≠ "/exit".toList)
    (hp : HasPrefix (TrimSpace buf) "/nick".toList = false) :
    loopBody c buf
      = ⟨c, [.Send (.broadcast ⟨c, c.Nickname ++ ": ".toList ++ TrimSpace buf
              ++ "\n".toList⟩)], false⟩ := by
  simp only [loopBody, hne, hp, newMessage, if_false, Bool.false_eq_true]

/-- The four ways through the body of the loop. -/
theorem loopBody_cases (c : Client) (buf : Str) :
    (TrimSpace buf = "/exit".toList ∧ (loopBody c buf).returned = true) ∨
    ((loopBody c buf).returned = false ∧ TrimSpace buf ≠ "/exit".toList ∧
      ((∃ name, loopBody c buf
          = ⟨⟨c.Conn, name⟩,
              [.Write ("Changed nickname from ".toList ++ c.Nickname ++ " to ".toList ++ name
                  ++ "\n".toList),
               .Send (.broadcast ⟨⟨c.Conn, name⟩,
                  c.Nickname ++ " changed nickname to ".toList ++ name ++ "\n".toList⟩)],
              false⟩) ∨
       loopBody c buf = ⟨c, [.Write "Usage: /nick <name>\n".toList], false⟩ ∨
       loopBody c buf
          = ⟨c, [.Send (.broadcast ⟨c, c.Nickname ++ ": ".toList ++ TrimSpace buf
                  ++ "\n".toList⟩)], false⟩)) := by
  by_cases hexit : TrimSpace buf = "/exit".toList
  · left
    exact ⟨hexit, by rw [loopBody_exit c buf hexit]⟩
  · right
    by_cases hp : HasPrefix (TrimSpace buf) "/nick".toList = true
    · cases hs : Split (TrimSpace buf) ' ' with
      | nil => exact absurd hs (splitWhere_ne_nil _ _)
      | cons first rest =>
        cases rest with
        | nil =>
          have h := loopBody_usage c buf first hp hs
          exact ⟨by rw [h], hexit, Or.inr (Or.inl h)⟩
        | cons name more =>
          have h := loopBody_rename c buf first name more hp hs
          exact ⟨by rw [h], hexit, Or.inl ⟨name, h⟩⟩
    · have hp' : HasPrefix (TrimSpace buf) "/nick".toList = false := by simpa using hp
      have h := loopBody_chat c buf hexit hp'
      exact ⟨by rw [h], hexit, Or.inr (Or.inr h)⟩

/-- The body of the loop returns exactly on "/exit". -/
theorem loopBody_returned_iff (c : Client) (buf : Str) :
    (loopBody c buf).returned = true ↔ TrimSpace buf = "/exit".toList := by
  rcases loopBody_cases c buf with ⟨h, hr⟩ | ⟨hr, h, _⟩
  · exact ⟨fun _ => h, fun _ => hr⟩
  · constructor
    · intro hret
      rw [hr] at hret
      cases hret
    · intro e
      exact absurd e h

/-- The body of the loop keeps the transport handle of the client. -/
theorem loopBody_conn (c : Client) (buf : Str) : (loopBody c buf).client.Conn = c.Conn := by
  by_cases hexit : TrimSpace buf = "/exit".toList
  · rw [loopBody_exit c buf hexit]
  · rcases loopBody_cases c buf with ⟨h, _⟩ | ⟨_, _, ⟨name, h⟩ | h | h⟩
    · exact absurd h hexit
    · rw [h]
    · rw [h]
    · rw [h]

/-- The body of the loop sends nothing on `unregister`. -/
theorem loopBody_no_unregister (c : Client) (buf : Str) (x : Client) :
    Action.Send (.unregister x) ∉ (loopBody c buf).trace := by
  by_cases hexit : TrimSpace buf = "/exit".toList
  · rw [loopBody_exit c buf hexit]
    simp
  · rcases loopBody_cases c buf with ⟨h, _⟩ | ⟨_, _, ⟨name, h⟩ | h | h⟩
    · exact absurd h hexit
    · rw [h]; simp
    · rw [h]; simp
    · rw [h]; simp

/-- The loop stops at a pass through its body that returns. -/
theorem readLoop_data_returned (c : Client) (buf : Str) (rest : List ReadResult)
    (h : (loopBody c buf).returned = true) :
    readLoop c (.data buf :: rest) = loopBody c buf := by
  simp [readLoop, h]

/-- The loop goes on after a pass through its body that does not return. -/
theorem readLoop_data_continue (c : Client) (buf : Str) (rest : List ReadResult)
    (h : (loopBody c buf).returned = false) :
    readLoop c (.data buf :: rest)
      = ⟨(readLoop (loopBody c buf).client rest).client,
          (loopBody c buf).trace ++ (readLoop (loopBody c buf).client rest).trace,
          (readLoop (loopBody c buf).client rest).returned⟩ := by
  simp [readLoop, h]

/-- A loop that has not returned goes on with the next reads from where it stands. -/
theorem readLoop_append (c : Client) (pre more : List ReadResult)
    (h : (readLoop c pre).returned = false) :
    readLoop c (pre ++ more)
      = ⟨(readLoop (readLoop c pre).client more).client,
          (readLoop c pre).trace ++ (readLoop (readLoop c pre).client more).trace,
          (readLoop (readLoop c pre).client more).returned⟩ := by
  induction pre generalizing c with
  | nil => simp [readLoop]
  | cons r rest ih =>
    cases r with
    | err => simp [readLoop] at h
    | data buf =>
      cases hb : (loopBody c buf).returned with
      | true =>
        rw [readLoop_data_returned c buf rest hb, hb] at h
        cases h
      | false =>
        rw [readLoop_data_continue c buf rest hb] at h
        have ih' := ih (loopBody c buf).client h
        rw [List.cons_append, readLoop_data_continue c buf _ hb, ih',
          readLoop_data_continue c buf rest hb]
        simp only [List.append_assoc]

/-- The loop keeps the transport handle of the client. -/
theorem readLoop_conn (c : Client) (reads : List ReadResult) :
    (readLoop c reads).client.Conn = c.Conn := by
  induction reads generalizing c with
  | nil => rfl
  | cons r rest ih =>
    cases r with
    | err => rfl
    | data buf =>
      cases hb : (loopBody c buf).returned with
      | true =>
        rw [readLoop_data_returned c buf rest hb]
        exact loopBody_conn c buf
      | false =>
        rw [readLoop_data_continue c buf rest hb]
        show (readLoop (loopBody c buf).client rest).client.Conn = c.Conn
        rw [ih, loopBody_conn]

/-- The loop itself sends nothing on `unregister`. -/
theorem readLoop_no_unregister (c : Client) (reads : List ReadResult) (x : Client) :
    Action.Send (.unregister x) ∉ (readLoop c reads).trace := by
  induction reads generalizing c with
  | nil => simp [readLoop]
  | cons r rest ih =>
    cases r with
    | err => simp [readLoop]
    | data buf =>
      cases hb : (loopBody c buf).returned with
      | true =>
        rw [readLoop_data_returned c buf rest hb]
        exact loopBody_no_unregister c buf x
      | false =>
        rw [readLoop_data_continue c buf rest hb]
        simp only [List.mem_append, not_or]
        exact ⟨loopBody_no_unregister c buf x, ih _⟩

/-- The loop returns exactly when a read fails or gives "/exit". -/
theorem readLoop_returned_iff (c : Client) (reads : List ReadResult) :
    (readLoop c reads).returned = true ↔
      (ReadResult.err ∈ reads ∨
        ∃ buf, ReadResult.data buf ∈ reads ∧ TrimSpace buf = "/exit".toList) := by
  induction reads generalizing c with
  | nil => simp [readLoop]
  | cons r rest ih =>
    cases r with
    | err => simp [readLoop]
    | data buf =>
      cases hb : (loopBody c buf).returned with
      | true =>
        have hexit := (loopBody_returned_iff c buf).mp hb
        rw [readLoop_data_returned c buf rest hb, hb]
        simp only [true_iff]
        exact Or.inr ⟨buf, List.mem_cons_self _ _, hexit⟩
      | false =>
        have hexit : TrimSpace buf ≠ "/exit".toList := by
          intro e
          rw [(loopBody_returned_iff c buf).mpr e] at hb
          cases hb
        rw [readLoop_data_continue c buf rest hb]
        show (readLoop (loopBody c buf).client rest).returned = true ↔ _
        rw [ih]
        constructor
        · rintro (h | ⟨b, hm, hx⟩)
          · exact Or.inl (List.mem_cons_of_mem _ h)
          · exact Or.inr ⟨b, List.mem_cons_of_mem _ hm, hx⟩
        · rintro (h | ⟨b, hm, hx⟩)
          · rcases List.mem_cons.mp h with h | h
            · cases h
            · exact Or.inl h
          · rcases List.mem_cons.mp hm with h | h
            · cases h
              exact absurd hx hexit
            · exact Or.inr ⟨b, h, hx⟩

/-- Where white space includes the space character, a string without white space has
no space character. -/
theorem ne_space_of_not_ws (ws : Char → Bool) (hsp : ws ' ' = true) (l : Str)
    (h : ∀ ch ∈ l, ws ch = false) : ∀ ch ∈ l, decide (ch = ' ') = false := by
  intro ch hch
  have hch' := h ch hch
  by_contra hcon
  have he : ch = ' ' := by simpa using hcon
  rw [he, hsp] at hch'
  cases hch'

/-- What the session puts on the channels, over two stretches of its trace. -/
theorem sent_append (a b : List Action) : sent (a ++ b) = sent a ++ sent b := by
  induction a with
  | nil => rfl
  | cons x xs ih => cases x <;> simp [sent, ih]

/-- The broadcast loop writes to every entry with another handle than the source. -/
theorem mem_rangeWrite (msg : Message) (R : Registry) (r : Client) (hr : r ∈ R)
    (hne : r.Conn ≠ msg.Client.Conn) :
    ConnOp.Write r.Conn msg.Msg ∈ rangeWrite msg R := by
  rw [rangeWrite_eq]
  exact List.mem_map.mpr ⟨r, List.mem_filter.mpr ⟨hr, by simpa using hne⟩, rfl⟩

/-- The broadcast loop never writes to the handle of the source. -/
theorem not_mem_rangeWrite_source (msg : Message) (R : Registry) (d : Str) :
    ConnOp.Write msg.Client.Conn d ∉ rangeWrite msg R := by
  rw [rangeWrite_eq]
  intro h
  obtain ⟨r, hr, he⟩ := List.mem_map.mp h
  have hne := (List.mem_filter.mp hr).2
  injection he with h1 _
  simp [h1] at hne

/-! ## The session: commands and chat lines -/

/-- C5 (counterexample): "/nick  Bob" and "/nick<TAB>Bob" start with "/nick" and have the
two whitespace-separated tokens "/nick" and "Bob" (for white space read as Unicode white
space and as "spaces or tabs" alike); on the first the session sets the nickname to the
empty string, on the second it answers with the usage line and keeps the nickname: in
neither case is "Bob", the second token, the new nickname. -/
theorem C5_counterexample_runs_and_tabs :
    HasPrefix (TrimSpace "/nick  Bob".toList) "/nick".toList = true ∧
    whitespaceTokens isSpace (TrimSpace "/nick  Bob".toList)
      = ["/nick".toList, "Bob".toList] ∧
    whitespaceTokens spaceOrTab (TrimSpace "/nick  Bob".toList)
      = ["/nick".toList, "Bob".toList] ∧
    (loopBody ⟨1, "Anonymous".toList⟩ "/nick  Bob".toList).client = ⟨1, []⟩ ∧
    HasPrefix (TrimSpace "/nick\tBob".toList) "/nick".toList = true ∧
    whitespaceTokens isSpace (TrimSpace "/nick\tBob".toList)
      = ["/nick".toList, "Bob".toList] ∧
    whitespaceTokens spaceOrTab (TrimSpace "/nick\tBob".toList)
      = ["/nick".toList, "Bob".toList] ∧
    loopBody ⟨1, "Anonymous".toList⟩ "/nick\tBob".toList
      = ⟨⟨1, "Anonymous".toList⟩, [.Write "Usage: /nick <name>\n".toList], false⟩ := by
  decide

/-- C5 (amended): let white space be any set of characters that holds the space
character.  When the trimmed input starts with "/nick", has at least two
whitespace-separated tokens, its first token is followed by exactly one space character
and its second token by a space character or by the end of the input, the session sets
the nickname to that second token, which is not empty and holds no white space; the
transport handle is kept and the session goes on reading. -/
theorem C5_nick_argument_after_single_space (ws : Char → Bool) (c : Client)
    (buf tok0 tok1 : Str) (more : List Str) (rest : Str)
    (hsp : ws ' ' = true)
    (hnick : HasPrefix (TrimSpace buf) "/nick".toList = true)
    (htok : whitespaceTokens ws (TrimSpace buf) = tok0 :: tok1 :: more)
    (hshape : TrimSpace buf = tok0 ++ ' ' :: (tok1 ++ rest))
    (hrest : rest = [] ∨ ∃ r, rest = ' ' :: r) :
    (loopBody c buf).client = ⟨c.Conn, tok1⟩ ∧ (loopBody c buf).returned = false ∧
      tok1 ≠ [] ∧ ∀ ch ∈ tok1, ws ch = false := by
  have h0 := whitespaceTokens_mem ws (TrimSpace buf) tok0 (by rw [htok]; simp)
  have h1 := whitespaceTokens_mem ws (TrimSpace buf) tok1 (by rw [htok]; simp)
  have hsep : (fun ch : Char => decide (ch = ' ')) ' ' = true := by decide
  have hsplit : ∃ pieces, Split (TrimSpace buf) ' ' = tok0 :: tok1 :: pieces := by
    unfold Split
    rw [hshape, splitWhere_append_cons _ tok0 ' ' _ (ne_space_of_not_ws ws hsp tok0 h0.2) hsep]
    rcases hrest with rfl | ⟨r, rfl⟩
    · rw [List.append_nil, splitWhere_of_no_sep _ tok1 (ne_space_of_not_ws ws hsp tok1 h1.2)]
      exact ⟨[], rfl⟩
    · rw [splitWhere_append_cons _ tok1 ' ' r (ne_space_of_not_ws ws hsp tok1 h1.2) hsep]
      exact ⟨_, rfl⟩
  obtain ⟨pieces, hs⟩ := hsplit
  rw [loopBody_rename c buf tok0 tok1 pieces hnick hs]
  exact ⟨rfl, rfl, h1.1, h1.2⟩

/-- C5 (amended) on "/nick Bob": the nickname becomes "Bob". -/
theorem C5_nick_argument_after_single_space_witness :
    (loopBody ⟨1, "Anonymous".toList⟩ "/nick Bob\n".toList).client = ⟨1, "Bob".toList⟩ ∧
    (loopBody ⟨1, "Anonymous".toList⟩ "/nick Bob\n".toList).returned = false ∧
    "Bob".toList ≠ [] ∧ ∀ ch ∈ "Bob".toList, isSpace ch = false :=
  C5_nick_argument_after_single_space isSpace ⟨1, "Anonymous".toList⟩ "/nick Bob\n".toList
    "/nick".toList "Bob".toList [] [] (by decide) (by decide) (by decide) (by decide)
    (Or.inl rfl)

/-- C6 (counterexample): after "/nick Bob" and then "/nick Carol" the later chat line
"hello" goes out as "Carol: hello", which does not start with "Bob: ". -/
theorem C6_counterexample_renamed_again :
    sent (readLoop ⟨1, "Anonymous".toList⟩
        [.data "/nick Bob".toList, .data "/nick Carol".toList, .data "hello".toList]).trace
      = [.broadcast ⟨⟨1, "Bob".toList⟩, "Anonymous changed nickname to Bob\n".toList⟩,
         .broadcast ⟨⟨1, "Carol".toList⟩, "Bob changed nickname to Carol\n".toList⟩,
         .broadcast ⟨⟨1, "Carol".toList⟩, "Carol: hello\n".toList⟩] ∧
    HasPrefix "Carol: hello\n".toList "Bob: ".toList = false := by
  decide

/-- C6 (amended): let the name be non-empty and without white space.  The text "/nick "
followed by the name is its own trimmed form, and on every input with that trimmed
form a session whose nickname is `c.Nickname` takes the name, writes the confirmation
to its own connection, sends one broadcast with itself as source and the notice as
text, and goes on reading from that state; handling that broadcast, `Run` writes the
notice to every entry with another handle and never to the handle of the session; and
every later chat line read while the name is still the nickname of the session goes out
with the name and ": " in front. -/
theorem C6_rename_visibility (c : Client) (name buf : Str) (R : Registry)
    (hne : name ≠ []) (hws : ∀ ch ∈ name, isSpace ch = false)
    (hbuf : TrimSpace buf = "/nick ".toList ++ name) :
    TrimSpace ("/nick ".toList ++ name) = "/nick ".toList ++ name ∧
    loopBody c buf
      = ⟨⟨c.Conn, name⟩,
          [.Write ("Changed nickname from ".toList ++ c.Nickname ++ " to ".toList ++ name
              ++ "\n".toList),
           .Send (.broadcast ⟨⟨c.Conn, name⟩,
              c.Nickname ++ " changed nickname to ".toList ++ name ++ "\n".toList⟩)],
          false⟩ ∧
    (∀ rest : List ReadResult,
      readLoop c (.data buf :: rest)
        = ⟨(readLoop ⟨c.Conn, name⟩ rest).client,
            [.Write ("Changed nickname from ".toList ++ c.Nickname ++ " to ".toList ++ name
                ++ "\n".toList),
             .Send (.broadcast ⟨⟨c.Conn, name⟩,
                c.Nickname ++ " changed nickname to ".toList ++ name ++ "\n".toList⟩)]
              ++ (readLoop ⟨c.Conn, name⟩ rest).trace,
            (readLoop ⟨c.Conn, name⟩ rest).returned⟩) ∧
    Run.select R (.broadcast ⟨⟨c.Conn, name⟩,
        c.Nickname ++ " changed nickname to ".toList ++ name ++ "\n".toList⟩)
      = (R, (R.filter (fun r => decide (r.Conn ≠ c.Conn))).map (fun r => ConnOp.Write r.Conn
          (c.Nickname ++ " changed nickname to ".toList ++ name ++ "\n".toList))) ∧
    (∀ r ∈ R, r.Conn ≠ c.Conn →
      ConnOp.Write r.Conn (c.Nickname ++ " changed nickname to ".toList ++ name ++ "\n".toList)
        ∈ (Run.select R (.broadcast ⟨⟨c.Conn, name⟩,
            c.Nickname ++ " changed nickname to ".toList ++ name ++ "\n".toList⟩)).2) ∧
    (∀ d, ConnOp.Write c.Conn d
        ∉ (Run.select R (.broadcast ⟨⟨c.Conn, name⟩,
            c.Nickname ++ " changed nickname to ".toList ++ name ++ "\n".toList⟩)).2) ∧
    (∀ (later : List ReadResult) (line : Str),
      (readLoop ⟨c.Conn, name⟩ later).returned = false →
      (readLoop ⟨c.Conn, name⟩ later).client.Nickname = name →
      TrimSpace line ≠ "/exit".toList →
      HasPrefix (TrimSpace line) "/nick".toList = false →
      readLoop ⟨c.Conn, name⟩ (later ++ [.data line])
        = ⟨⟨c.Conn, name⟩,
            (readLoop ⟨c.Conn, name⟩ later).trace ++
              [.Send (.broadcast ⟨⟨c.Conn, name⟩,
                name ++ ": ".toList ++ TrimSpace line ++ "\n".toList⟩)],
            false⟩) := by
  have hform : "/nick ".toList ++ name = '/' :: ("nick ".toList ++ name) := rfl
  have hlast : isSpace (('/' :: ("nick ".toList ++ name)).getLast (List.cons_ne_nil _ _))
      = false := by
    have h1 : ('/' :: ("nick ".toList ++ name)).getLast (List.cons_ne_nil _ _)
        = name.getLast hne :=
      List.getLast_append_right (l := "/nick ".toList) hne
    rw [h1]
    exact hws _ (List.getLast_mem hne)
  have htrim : TrimSpace ("/nick ".toList ++ name) = "/nick ".toList ++ name := by
    rw [hform]
    exact TrimSpace_eq_self '/' _ (by decide) hlast
  have hnick : HasPrefix (TrimSpace buf) "/nick".toList = true := by
    rw [hbuf]
    rfl
  have hsplit : Split (TrimSpace buf) ' ' = ["/nick".toList, name] := by
    rw [hbuf]
    have hshape : "/nick ".toList ++ name = "/nick".toList ++ ' ' :: name := rfl
    unfold Split
    rw [hshape, splitWhere_append_cons _ "/nick".toList ' ' name (by decide) (by decide),
      splitWhere_of_no_sep _ name (ne_space_of_not_ws isSpace (by decide) name hws)]
  have hbody := loopBody_rename c buf "/nick".toList name [] hnick hsplit
  refine ⟨htrim, hbody, ?_, ?_, ?_, ?_, ?_⟩
  · intro rest
    rw [readLoop_data_continue c _ rest (by rw [hbody]), hbody]
  · simp [Run.select, rangeWrite_eq]
  · intro r hr hrc
    exact mem_rangeWrite ⟨⟨c.Conn, name⟩, _⟩ R r hr hrc
  · intro d
    exact not_mem_rangeWrite_source ⟨⟨c.Conn, name⟩, _⟩ R d
  · intro later line hrun hname hexit hpre
    have hstate : (readLoop ⟨c.Conn, name⟩ later).client = ⟨c.Conn, name⟩ := by
      have hconn := readLoop_conn ⟨c.Conn, name⟩ later
      cases hcl : (readLoop ⟨c.Conn, name⟩ later).client with
      | mk conn nick =>
        rw [hcl] at hconn hname
        simp only at hconn hname
        rw [hconn, hname]
    have hchat := loopBody_chat ⟨c.Conn, name⟩ line hexit hpre
    rw [readLoop_append _ later _ hrun, hstate,
      readLoop_data_continue _ line [] (by rw [hchat]), hchat]
    simp [readLoop]

/-- C6 (amended) for a session named "Anonymous" that reads "/nick Bob" and a newline
while handles 1 and 2 are registered, and then the chat line "hello". -/
theorem C6_rename_visibility_witness :
    loopBody ⟨1, "Anonymous".toList⟩ "/nick Bob\n".toList
      = ⟨⟨1, "Bob".toList⟩,
          [.Write ("Changed nickname from ".toList ++ "Anonymous".toList ++ " to ".toList
              ++ "Bob".toList ++ "\n".toList),
           .Send (.broadcast ⟨⟨1, "Bob".toList⟩,
              "Anonymous".toList ++ " changed nickname to ".toList ++ "Bob".toList
                ++ "\n".toList⟩)],
          false⟩ ∧
    readLoop ⟨1, "Bob".toList⟩ ([] ++ [.data "hello\n".toList])
      = ⟨⟨1, "Bob".toList⟩,
          (readLoop ⟨1, "Bob".toList⟩ []).trace ++
            [.Send (.broadcast ⟨⟨1, "Bob".toList⟩,
              "Bob".toList ++ ": ".toList ++ TrimSpace "hello\n".toList ++ "\n".toList⟩)],
          false⟩ :=
  ⟨(C6_rename_visibility ⟨1, "Anonymous".toList⟩ "Bob".toList "/nick Bob\n".toList
      [⟨1, "Anonymous".toList⟩, ⟨2, "Anonymous".toList⟩]
      (by decide) (by decide) (by decide)).2.1,
   (C6_rename_visibility ⟨1, "Anonymous".toList⟩ "Bob".toList "/nick Bob\n".toList
      [⟨1, "Anonymous".toList⟩, ⟨2, "Anonymous".toList⟩]
      (by decide) (by decide) (by decide)).2.2.2.2.2.2 [] "hello\n".toList
      (by decide) (by decide) (by decide) (by decide)⟩

/-- C7: on an input whose trimmed form is not empty, is not "/exit" and does not start
with "/nick", a session sends one broadcast, with itself as source and its nickname,
": ", the trimmed input and a newline as text, writes nothing to its own connection,
keeps its nickname and goes on reading; handling that broadcast, `Run` writes the text
to every entry with another handle and never to the handle of the sender. -/
theorem C7_chat_relay (c : Client) (buf : Str) (R : Registry)
    (_hne : TrimSpace buf ≠ [])
    (hexit : TrimSpace buf ≠ "/exit".toList)
    (hnick : HasPrefix (TrimSpace buf) "/nick".toList = false) :
    loopBody c buf
      = ⟨c, [.Send (.broadcast ⟨c, c.Nickname ++ ": ".toList ++ TrimSpace buf
              ++ "\n".toList⟩)], false⟩ ∧
    written (loopBody c buf).trace = [] ∧
    (∀ rest : List ReadResult,
      readLoop c (.data buf :: rest)
        = ⟨(readLoop c rest).client,
            .Send (.broadcast ⟨c, c.Nickname ++ ": ".toList ++ TrimSpace buf ++ "\n".toList⟩)
              :: (readLoop c rest).trace,
            (readLoop c rest).returned⟩) ∧
    Run.select R (.broadcast ⟨c, c.Nickname ++ ": ".toList ++ TrimSpace buf ++ "\n".toList⟩)
      = (R, (R.filter (fun r => decide (r.Conn ≠ c.Conn))).map (fun r => ConnOp.Write r.Conn
          (c.Nickname ++ ": ".toList ++ TrimSpace buf ++ "\n".toList))) ∧
    (∀ r ∈ R, r.Conn ≠ c.Conn →
      ConnOp.Write r.Conn (c.Nickname ++ ": ".toList ++ TrimSpace buf ++ "\n".toList)
        ∈ (Run.select R (.broadcast ⟨c,
            c.Nickname ++ ": ".toList ++ TrimSpace buf ++ "\n".toList⟩)).2) ∧
    (∀ d, ConnOp.Write c.Conn d
        ∉ (Run.select R (.broadcast ⟨c,
            c.Nickname ++ ": ".toList ++ TrimSpace buf ++ "\n".toList⟩)).2) := by
  have hbody := loopBody_chat c buf hexit hnick
  refine ⟨hbody, ?_, ?_, ?_, ?_, ?_⟩
  · rw [hbody]
    rfl
  · intro rest
    rw [readLoop_data_continue c buf rest (by rw [hbody]), hbody]
    rfl
  · simp [Run.select, rangeWrite_eq]
  · intro r hr hrc
    exact mem_rangeWrite ⟨c, _⟩ R r hr hrc
  · intro d
    exact not_mem_rangeWrite_source ⟨c, _⟩ R d

/-- C7 for the session of handle 1, named "Alice", reading "hello" while handles 1 and
2 are registered: handle 2 gets "Alice: hello", handle 1 nothing. -/
theorem C7_chat_relay_witness :
    loopBody ⟨1, "Alice".toList⟩ "hello\n".toList
      = ⟨⟨1, "Alice".toList⟩,
          [.Send (.broadcast ⟨⟨1, "Alice".toList⟩, "Alice: hello\n".toList⟩)], false⟩ ∧
    Run.select [⟨1, "Anonymous".toList⟩, ⟨2, "Anonymous".toList⟩]
        (.broadcast ⟨⟨1, "Alice".toList⟩, "Alice: hello\n".toList⟩)
      = ([⟨1, "Anonymous".toList⟩, ⟨2, "Anonymous".toList⟩],
          [ConnOp.Write 2 "Alice: hello\n".toList]) :=
  ⟨(C7_chat_relay ⟨1, "Alice".toList⟩ "hello\n".toList
      [⟨1, "Anonymous".toList⟩, ⟨2, "Anonymous".toList⟩]
      (by decide) (by decide) (by decide)).1,
   by decide⟩

/-- The function `handleRequest` in terms of its loop. -/
theorem handleRequest_eq (c : Client) (reads : List ReadResult) :
    handleRequest c reads
      = ⟨(readLoop c reads).client,
          greeting ++ (readLoop c reads).trace ++
            (if (readLoop c reads).returned = true
              then [.Send (.unregister (readLoop c reads).client)] else []),
          (readLoop c reads).returned⟩ := rfl

/-- C8: a session that has not returned returns on its next input exactly when the
input, trimmed of white space at both ends, is "/exit"; it then sends the broadcast of
its nickname followed by " disconnected", writes "Goodbye!" to its own connection and
sends the leave for itself, in this order, and whatever could be read afterwards plays
no part.  So "  /exit" followed by a carriage return and a newline exits, "/exit now"
and "/exits" do not. -/
theorem C8_exit_handling (c0 : Client) (pre : List ReadResult) (buf : Str)
    (rest : List ReadResult) (hrun : (readLoop c0 pre).returned = false) :
    ((handleRequest c0 (pre ++ [.data buf])).returned = true
      ↔ TrimSpace buf = "/exit".toList) ∧
    ((loopBody (readLoop c0 pre).client buf).returned = true
      ↔ TrimSpace buf = "/exit".toList) ∧
    (TrimSpace buf = "/exit".toList →
      handleRequest c0 (pre ++ .data buf :: rest)
        = ⟨(readLoop c0 pre).client,
            greeting ++ (readLoop c0 pre).trace ++
              [.Send (.broadcast ⟨(readLoop c0 pre).client,
                  (readLoop c0 pre).client.Nickname ++ " disconnected\n".toList⟩),
               .Write "Goodbye!\n".toList,
               .Send (.unregister (readLoop c0 pre).client)],
            true⟩) ∧
    TrimSpace "  /exit\r\n".toList = "/exit".toList ∧
    TrimSpace "/exit now".toList ≠ "/exit".toList ∧
    TrimSpace "/exits".toList ≠ "/exit".toList := by
  refine ⟨?_, loopBody_returned_iff _ buf, ?_, by decide, by decide, by decide⟩
  · rw [handleRequest_eq, readLoop_append c0 pre _ hrun]
    show (readLoop (readLoop c0 pre).client [.data buf]).returned = true ↔ _
    rw [← loopBody_returned_iff (readLoop c0 pre).client buf]
    cases hb : (loopBody (readLoop c0 pre).client buf).returned with
    | true => rw [readLoop_data_returned _ buf [] hb, hb]
    | false =>
      rw [readLoop_data_continue _ buf [] hb]
      simp [readLoop]
  · intro hexit
    have hbody := loopBody_exit (readLoop c0 pre).client buf hexit
    rw [handleRequest_eq, readLoop_append c0 pre _ hrun,
      readLoop_data_returned _ buf rest (by rw [hbody]), hbody]
    simp

/-- C8 on the first input of a session named "Anonymous": "  /exit" with a carriage
return and a newline. -/
theorem C8_exit_handling_witness :
    handleRequest ⟨1, "Anonymous".toList⟩ ([] ++ .data "  /exit\r\n".toList :: [.data "x".toList])
      = ⟨⟨1, "Anonymous".toList⟩,
          greeting ++ [] ++
            [.Send (.broadcast ⟨⟨1, "Anonymous".toList⟩,
                "Anonymous".toList ++ " disconnected\n".toList⟩),
             .Write "Goodbye!\n".toList,
             .Send (.unregister ⟨1, "Anonymous".toList⟩)],
          true⟩ :=
  (C8_exit_handling ⟨1, "Anonymous".toList⟩ [] "  /exit\r\n".toList [.data "x".toList]
    (by decide)).2.2.1 (by decide)

/-- C9: let white space be any set of characters that holds the space character and
only characters trimmed by `TrimSpace` (Unicode white space itself, or "spaces or
tabs").  On an input whose trimmed form starts with "/nick" and has fewer than two
whitespace-separated tokens, a session writes the usage line to its own connection,
sends nothing to the coordinator, keeps its client value, nickname included, and goes
on reading. -/
theorem C9_nick_without_argument (ws : Char → Bool) (c : Client) (buf : Str)
    (hsp : ws ' ' = true) (hsub : ∀ ch, ws ch = true → isSpace ch = true)
    (hnick : HasPrefix (TrimSpace buf) "/nick".toList = true)
    (htok : (whitespaceTokens ws (TrimSpace buf)).length < 2) :
    loopBody c buf = ⟨c, [.Write "Usage: /nick <name>\n".toList], false⟩ ∧
    sent (loopBody c buf).trace = [] ∧
    written (loopBody c buf).trace = ["Usage: /nick <name>\n".toList] ∧
    (∀ rest : List ReadResult,
      readLoop c (.data buf :: rest)
        = ⟨(readLoop c rest).client,
            .Write "Usage: /nick <name>\n".toList :: (readLoop c rest).trace,
            (readLoop c rest).returned⟩) := by
  have hnot : ∀ ch, isSpace ch = false → ws ch = false := by
    intro ch hch
    cases hw : ws ch with
    | false => rfl
    | true =>
      rw [hsub ch hw] at hch
      cases hch
  have hpre : "/nick".toList <+: TrimSpace buf := by
    simpa [HasPrefix] using hnick
  obtain ⟨tail, htail⟩ := hpre
  have hhead : ∃ ch cs, TrimSpace buf = ch :: cs ∧ ws ch = false :=
    ⟨'/', "nick".toList ++ tail, htail.symm, hnot '/' (by decide)⟩
  have hnospace := no_space_of_tokens_lt_two ws (TrimSpace buf) hhead
    (fun h => hnot _ (TrimSpace_getLast buf h)) htok
  have hsplit : Split (TrimSpace buf) ' ' = [TrimSpace buf] :=
    splitWhere_of_no_sep _ _ (ne_space_of_not_ws ws hsp _ hnospace)
  have hbody := loopBody_usage c buf _ hnick hsplit
  refine ⟨hbody, ?_, ?_, ?_⟩
  · rw [hbody]; rfl
  · rw [hbody]; rfl
  · intro rest
    rw [readLoop_data_continue c buf rest (by rw [hbody]), hbody]
    rfl

/-- C9 on "/nick", on "/nick" followed by three spaces, and on "/nickBob", the last
with white space read as "spaces or tabs". -/
theorem C9_nick_without_argument_witness :
    loopBody ⟨1, "Anonymous".toList⟩ "/nick".toList
      = ⟨⟨1, "Anonymous".toList⟩, [.Write "Usage: /nick <name>\n".toList], false⟩ ∧
    loopBody ⟨1, "Anonymous".toList⟩ "/nick   ".toList
      = ⟨⟨1, "Anonymous".toList⟩, [.Write "Usage: /nick <name>\n".toList], false⟩ ∧
    loopBody ⟨1, "Anonymous".toList⟩ "/nickBob".toList
      = ⟨⟨1, "Anonymous".toList⟩, [.Write "Usage: /nick <name>\n".toList], false⟩ :=
  ⟨(C9_nick_without_argument isSpace ⟨1, "Anonymous".toList⟩ "/nick".toList
      (by decide) (fun _ h => h) (by decide) (by decide)).1,
   (C9_nick_without_argument isSpace ⟨1, "Anonymous".toList⟩ "/nick   ".toList
      (by decide) (fun _ h => h) (by decide) (by decide)).1,
   (C9_nick_without_argument spaceOrTab ⟨1, "Anonymous".toList⟩ "/nickBob".toList
      (by decide) spaceOrTab_isSpace (by decide) (by decide)).1⟩

/-- C10: a session returns exactly when one of its reads fails or gives "/exit"; when
it has returned, the last thing it did was to send the leave for its own client value,
whose transport handle is the one it was started with, and it sent no leave before;
when it has not returned it has sent no leave at all. -/
theorem C10_leave_on_every_exit (c : Client) (reads : List ReadResult) :
    ((handleRequest c reads).returned = true ↔
      (ReadResult.err ∈ reads ∨
        ∃ buf, ReadResult.data buf ∈ reads ∧ TrimSpace buf = "/exit".toList)) ∧
    (handleRequest c reads).client.Conn = c.Conn ∧
    ((handleRequest c reads).returned = true →
      ∃ before, (handleRequest c reads).trace
          = before ++ [.Send (.unregister (handleRequest c reads).client)] ∧
        (∀ x, Action.Send (.unregister x) ∉ before) ∧
        sent (handleRequest c reads).trace
          = sent before ++ [.unregister (handleRequest c reads).client] ∧
        (∀ x, Event.unregister x ∉ sent before)) ∧
    ((handleRequest c reads).returned = false →
      (∀ x, Action.Send (.unregister x) ∉ (handleRequest c reads).trace) ∧
      (∀ x, Event.unregister x ∉ sent (handleRequest c reads).trace)) := by
  have hsent : ∀ (l : List Action) (x : Client),
      Action.Send (.unregister x) ∉ l → Event.unregister x ∉ sent l := by
    intro l x
    induction l with
    | nil => simp [sent]
    | cons a as ih =>
      intro h
      have hrest : Action.Send (.unregister x) ∉ as := fun hm => h (List.mem_cons_of_mem _ hm)
      cases a with
      | Write d => simpa [sent] using ih hrest
      | Send e =>
        have hne : Event.unregister x ≠ e := by
          intro he
          apply h
          rw [he]
          exact List.mem_cons_self _ _
        simp only [sent, List.mem_cons, not_or]
        exact ⟨hne, ih hrest⟩
  have hclean : ∀ x, Action.Send (.unregister x) ∉ greeting ++ (readLoop c reads).trace := by
    intro x hm
    rcases List.mem_append.mp hm with h | h
    · revert h
      simp [greeting]
    · exact readLoop_no_unregister c reads x h
  refine ⟨readLoop_returned_iff c reads, readLoop_conn c reads, ?_, ?_⟩
  · intro hret
    have hret' : (readLoop c reads).returned = true := hret
    refine ⟨greeting ++ (readLoop c reads).trace, ?_, hclean, ?_, fun x => hsent _ x (hclean x)⟩
    · rw [handleRequest_eq]
      simp [hret']
    · rw [handleRequest_eq]
      simp [hret', sent_append, sent]
  · intro hret
    have hret' : (readLoop c reads).returned = false := hret
    have htrace : (handleRequest c reads).trace = greeting ++ (readLoop c reads).trace := by
      rw [handleRequest_eq]
      simp [hret']
    rw [htrace]
    exact ⟨hclean, fun x => hsent _ x (hclean x)⟩

/-- C10 on a session that reads "/nick Bob" and then fails to read: it has returned
and the last thing it did was to send the leave for its client value, renamed. -/
theorem C10_leave_on_every_exit_witness :
    (handleRequest ⟨1, "Anonymous".toList⟩ [.data "/nick Bob".toList, .err]).returned = true ∧
    (handleRequest ⟨1, "Anonymous".toList⟩ [.data "/nick Bob".toList, .err]).client
      = ⟨1, "Bob".toList⟩ ∧
    ∃ before,
      (handleRequest ⟨1, "Anonymous".toList⟩ [.data "/nick Bob".toList, .err]).trace
        = before ++ [.Send (.unregister
            (handleRequest ⟨1, "Anonymous".toList⟩ [.data "/nick Bob".toList, .err]).client)] ∧
      (∀ x, Action.Send (.unregister x) ∉ before) ∧
      sent (handleRequest ⟨1, "Anonymous".toList⟩ [.data "/nick Bob".toList, .err]).trace
        = sent before ++ [.unregister
            (handleRequest ⟨1, "Anonymous".toList⟩ [.data "/nick Bob".toList, .err]).client] ∧
      (∀ x, Event.unregister x ∉ sent before) :=
  ⟨by decide, by decide,
   (C10_leave_on_every_exit ⟨1, "Anonymous".toList⟩
      [.data "/nick Bob".toList, .err]).2.2.1 (by decide)⟩

/-! ## Empty input, joins, and the results of writes -/

/-- C11 (counterexample): a bare newline has an empty trimmed form, yet the session of
handle 1 sends the broadcast "Anonymous: " with a newline, and `Run` writes it to the
other registered client, handle 2. -/
theorem C11_counterexample_bare_newline :
    TrimSpace "\n".toList = [] ∧
    loopBody ⟨1, "Anonymous".toList⟩ "\n".toList
      = ⟨⟨1, "Anonymous".toList⟩,
          [.Send (.broadcast ⟨⟨1, "Anonymous".toList⟩, "Anonymous: \n".toList⟩)], false⟩ ∧
    Run.select [⟨1, "Anonymous".toList⟩, ⟨2, "Anonymous".toList⟩]
        (.broadcast ⟨⟨1, "Anonymous".toList⟩, "Anonymous: \n".toList⟩)
      = ([⟨1, "Anonymous".toList⟩, ⟨2, "Anonymous".toList⟩],
          [ConnOp.Write 2 "Anonymous: \n".toList]) := by
  decide

/-- C11 (amended): on an input whose trimmed form is empty a session sends one
broadcast, with itself as source and its nickname, ": " and a newline as text, writes
nothing to its own connection, keeps its client value and goes on reading; handling
that broadcast, `Run` writes the text to every entry with another handle and never to
the handle of the sender. -/
theorem C11_empty_input_is_relayed (c : Client) (buf : Str) (R : Registry)
    (hempty : TrimSpace buf = []) :
    loopBody c buf
      = ⟨c, [.Send (.broadcast ⟨c, c.Nickname ++ ": ".toList ++ "\n".toList⟩)], false⟩ ∧
    written (loopBody c buf).trace = [] ∧
    (∀ rest : List ReadResult,
      readLoop c (.data buf :: rest)
        = ⟨(readLoop c rest).client,
            .Send (.broadcast ⟨c, c.Nickname ++ ": ".toList ++ "\n".toList⟩)
              :: (readLoop c rest).trace,
            (readLoop c rest).returned⟩) ∧
    Run.select R (.broadcast ⟨c, c.Nickname ++ ": ".toList ++ "\n".toList⟩)
      = (R, (R.filter (fun r => decide (r.Conn ≠ c.Conn))).map (fun r => ConnOp.Write r.Conn
          (c.Nickname ++ ": ".toList ++ "\n".toList))) ∧
    (∀ r ∈ R, r.Conn ≠ c.Conn →
      ConnOp.Write r.Conn (c.Nickname ++ ": ".toList ++ "\n".toList)
        ∈ (Run.select R (.broadcast ⟨c, c.Nickname ++ ": ".toList ++ "\n".toList⟩)).2) ∧
    (∀ d, ConnOp.Write c.Conn d
        ∉ (Run.select R (.broadcast ⟨c, c.Nickname ++ ": ".toList ++ "\n".toList⟩)).2) := by
  have hexit : TrimSpace buf ≠ "/exit".toList := by
    rw [hempty]
    decide
  have hnick : HasPrefix (TrimSpace buf) "/nick".toList = false := by
    rw [hempty]
    rfl
  have hbody : loopBody c buf
      = ⟨c, [.Send (.broadcast ⟨c, c.Nickname ++ ": ".toList ++ "\n".toList⟩)], false⟩ := by
    rw [loopBody_chat c buf hexit hnick, hempty, List.append_nil]
  refine ⟨hbody, ?_, ?_, ?_, ?_, ?_⟩
  · rw [hbody]
    rfl
  · intro rest
    rw [readLoop_data_continue c buf rest (by rw [hbody]), hbody]
    rfl
  · simp [Run.select, rangeWrite_eq]
  · intro r hr hrc
    exact mem_rangeWrite ⟨c, _⟩ R r hr hrc
  · intro d
    exact not_mem_rangeWrite_source ⟨c, _⟩ R d

/-- C11 (amended) on three spaces and a newline, read by a session named "Bob". -/
theorem C11_empty_input_is_relayed_witness :
    loopBody ⟨1, "Bob".toList⟩ "   \n".toList
      = ⟨⟨1, "Bob".toList⟩,
          [.Send (.broadcast ⟨⟨1, "Bob".toList⟩,
            "Bob".toList ++ ": ".toList ++ "\n".toList⟩)], false⟩ :=
  (C11_empty_input_is_relayed ⟨1, "Bob".toList⟩ "   \n".toList
    [⟨1, "Anonymous".toList⟩, ⟨2, "Anonymous".toList⟩] (by decide)).1

/-- Registering clients that are not yet keys, one after the other, appends them. -/
theorem Run_loop_register (R : Registry) (l : List Client) (h : (R ++ l).Nodup) :
    Run.loop R (l.map Event.register) = (R ++ l, []) := by
  induction l generalizing R with
  | nil => simp [Run.loop]
  | cons c l ih =>
    have hc : c ∉ R := by
      intro hmem
      have := List.nodup_append.mp h
      exact this.2.2 hmem (List.mem_cons_self _ _)
    have h' : ((R ++ [c]) ++ l).Nodup := by simpa using h
    have hstep : Run.select R (.register c) = (R ++ [c], []) := by
      simp [Run.select, mapStore, hc]
    simp only [List.map_cons, Run.loop, hstep, ih (R ++ [c]) h']
    simp

/-- C13: joins of clients with pairwise distinct transport handles, taken by `Run`
from the empty map in any order, leave a map with exactly these clients as keys, each
once, so as many entries as there are joins; the join steps write nothing and close
nothing. -/
theorem C13_join_isolation (cs order : List Client)
    (hdistinct : (cs.map (fun c => c.Conn)).Nodup) (horder : order.Perm cs) :
    (Run (order.map Event.register)).1.length = cs.length ∧
    (Run (order.map Event.register)).1.Perm cs ∧
    (Run (order.map Event.register)).1.Nodup ∧
    ((Run (order.map Event.register)).1.map (fun c => c.Conn)).Nodup ∧
    (∀ c, c ∈ (Run (order.map Event.register)).1 ↔ c ∈ cs) ∧
    (Run (order.map Event.register)).2 = [] := by
  have hcs : cs.Nodup := List.Nodup.of_map _ hdistinct
  have hord : order.Nodup := horder.nodup_iff.mpr hcs
  have hrun : Run (order.map Event.register) = (order, []) := by
    have := Run_loop_register [] order (by simpa using hord)
    simpa [Run] using this
  rw [hrun]
  refine ⟨horder.length_eq, horder, hord, ?_, fun c => horder.mem_iff, rfl⟩
  exact ((horder.map (fun c => c.Conn)).nodup_iff).mpr hdistinct

/-- C13 for the joins of handles 1, 2 and 3, received in the order 2, 3, 1. -/
theorem C13_join_isolation_witness :
    (Run ([⟨2, "Anonymous".toList⟩, ⟨3, "Anonymous".toList⟩, ⟨1, "Anonymous".toList⟩].map
        Event.register)).1.length = 3 ∧
    (Run ([⟨2, "Anonymous".toList⟩, ⟨3, "Anonymous".toList⟩, ⟨1, "Anonymous".toList⟩].map
        Event.register)).2 = [] :=
  ⟨(C13_join_isolation
      [⟨1, "Anonymous".toList⟩, ⟨2, "Anonymous".toList⟩, ⟨3, "Anonymous".toList⟩]
      [⟨2, "Anonymous".toList⟩, ⟨3, "Anonymous".toList⟩, ⟨1, "Anonymous".toList⟩]
      (by decide) (by decide)).1,
   (C13_join_isolation
      [⟨1, "Anonymous".toList⟩, ⟨2, "Anonymous".toList⟩, ⟨3, "Anonymous".toList⟩]
      [⟨2, "Anonymous".toList⟩, ⟨3, "Anonymous".toList⟩, ⟨1, "Anonymous".toList⟩]
      (by decide) (by decide)).2.2.2.2.2⟩

/-- The transport calls of the broadcast loop are those of `rangeWrite`, whatever they
return. -/
theorem rangeWriteOn_fst (outcome : Nat → IOResult) (msg : Message) (k : Nat)
    (conns : List Client) :
    (rangeWriteOn outcome msg k conns).map Prod.fst = rangeWrite msg conns := by
  induction conns generalizing k with
  | nil => rfl
  | cons client rest ih =>
    by_cases h : client.Conn = msg.Client.Conn
    · simp [rangeWriteOn, rangeWrite, h, ih]
    · simp [rangeWriteOn, rangeWrite, h, ih]

/-- The results met by the broadcast loop are the next ones of the transport, in order. -/
theorem rangeWriteOn_snd (outcome : Nat → IOResult) (msg : Message) (k : Nat)
    (conns : List Client) :
    (rangeWriteOn outcome msg k conns).map Prod.snd
      = (List.range (rangeWrite msg conns).length).map (fun i => outcome (k + i)) := by
  induction conns generalizing k with
  | nil => rfl
  | cons client rest ih =>
    by_cases h : client.Conn = msg.Client.Conn
    · simp [rangeWriteOn, rangeWrite, h, ih]
    · simp only [rangeWriteOn, rangeWrite, h, if_false, List.map_cons, List.length_cons, ih,
        List.range_succ_eq_map, List.map_map]
      refine congrArg₂ List.cons rfl (List.map_congr_left ?_)
      intro i _
      simp only [Function.comp]
      congr 1
      omega

/-- C14: handling a broadcast, whatever each call of `Conn.Write` returns, `Run` leaves
the map as it was and closes nothing; it makes the same calls in the same order for any
two behaviours of the transport, every sequence of results being possible; and for
every kind of event the map afterwards and the calls made do not depend on the results
returned. -/
theorem C14_broadcast_keeps_membership (outcome : Nat → IOResult) (R : Registry)
    (msg : Message) :
    (Run.selectOn outcome R (.broadcast msg)).1 = R ∧
    (∀ h r, (ConnOp.Close h, r) ∉ (Run.selectOn outcome R (.broadcast msg)).2) ∧
    (Run.selectOn outcome R (.broadcast msg)).2.map Prod.fst
      = (R.filter (fun r => decide (r.Conn ≠ msg.Client.Conn))).map
          (fun r => ConnOp.Write r.Conn msg.Msg) ∧
    (Run.selectOn outcome R (.broadcast msg)).2.map Prod.snd
      = (List.range ((R.filter (fun r => decide (r.Conn ≠ msg.Client.Conn))).length)).map
          outcome ∧
    (∀ outcome' : Nat → IOResult,
      (Run.selectOn outcome' R (.broadcast msg)).1
        = (Run.selectOn outcome R (.broadcast msg)).1 ∧
      (Run.selectOn outcome' R (.broadcast msg)).2.map Prod.fst
        = (Run.selectOn outcome R (.broadcast msg)).2.map Prod.fst) ∧
    (∀ e : Event,
      (Run.selectOn outcome R e).1 = (Run.select R e).1 ∧
      (Run.selectOn outcome R e).2.map Prod.fst = (Run.select R e).2) := by
  have hfst : ∀ o : Nat → IOResult,
      (Run.selectOn o R (.broadcast msg)).2.map Prod.fst
        = (R.filter (fun r => decide (r.Conn ≠ msg.Client.Conn))).map
            (fun r => ConnOp.Write r.Conn msg.Msg) := by
    intro o
    show (rangeWriteOn o msg 0 R).map Prod.fst = _
    rw [rangeWriteOn_fst, rangeWrite_eq]
  refine ⟨rfl, ?_, hfst outcome, ?_, ?_, ?_⟩
  · intro h r hmem
    have hm : ConnOp.Close h ∈ (Run.selectOn outcome R (.broadcast msg)).2.map Prod.fst :=
      List.mem_map.mpr ⟨_, hmem, rfl⟩
    rw [hfst outcome] at hm
    simp at hm
  · show (rangeWriteOn outcome msg 0 R).map Prod.snd = _
    rw [rangeWriteOn_snd, rangeWrite_eq]
    simp
  · intro o
    exact ⟨rfl, by rw [hfst o, hfst outcome]⟩
  · intro e
    cases e with
    | register client => exact ⟨rfl, rfl⟩
    | unregister client =>
      by_cases h : client ∈ R
      · simp [Run.selectOn, Run.select, h]
      · simp [Run.selectOn, Run.select, h]
    | broadcast m =>
      exact ⟨rfl, rangeWriteOn_fst outcome m 0 R⟩

/-- C14 on a map with handles 1, 2 and 3 when every write fails: the broadcast of
handle 1 is still written to handles 2 and 3 and the map is unchanged. -/
theorem C14_broadcast_keeps_membership_witness :
    Run.selectOn (fun _ => ⟨0, true⟩)
        [⟨1, "Anonymous".toList⟩, ⟨2, "Anonymous".toList⟩, ⟨3, "Anonymous".toList⟩]
        (.broadcast ⟨⟨1, "Bob".toList⟩, "Bob: hi\n".toList⟩)
      = ([⟨1, "Anonymous".toList⟩, ⟨2, "Anonymous".toList⟩, ⟨3, "Anonymous".toList⟩],
          [(ConnOp.Write 2 "Bob: hi\n".toList, ⟨0, true⟩),
           (ConnOp.Write 3 "Bob: hi\n".toList, ⟨0, true⟩)]) ∧
    (Run.selectOn (fun _ => ⟨0, true⟩)
        [⟨1, "Anonymous".toList⟩, ⟨2, "Anonymous".toList⟩, ⟨3, "Anonymous".toList⟩]
        (.broadcast ⟨⟨1, "Bob".toList⟩, "Bob: hi\n".toList⟩)).1
      = [⟨1, "Anonymous".toList⟩, ⟨2, "Anonymous".toList⟩, ⟨3, "Anonymous".toList⟩] :=
  ⟨by decide,
   (C14_broadcast_keeps_membership (fun _ => ⟨0, true⟩)
      [⟨1, "Anonymous".toList⟩, ⟨2, "Anonymous".toList⟩, ⟨3, "Anonymous".toList⟩]
      ⟨⟨1, "Bob".toList⟩, "Bob: hi\n".toList⟩).1⟩

/-! ## Facts about what is sent for a connection and what `Run` makes of it -/

/-- A value was put on a channel exactly when the trace holds its send. -/
theorem mem_sent (e : Event) (l : List Action) : e ∈ sent l ↔ Action.Send e ∈ l := by
  induction l with
  | nil => simp [sent]
  | cons a as ih =>
    cases a with
    | Write d => simp [sent, ih]
    | Send e' => simp [sent, ih]

/-- What the body of the loop sends carries the handle of the client and is no join. -/
theorem loopBody_sent (c : Client) (buf : Str) (e : Event)
    (he : Action.Send e ∈ (loopBody c buf).trace) :
    e.conn = c.Conn ∧ ∀ x, e ≠ Event.register x := by
  by_cases hexit : TrimSpace buf = "/exit".toList
  · rw [loopBody_exit c buf hexit] at he
    simp at he
    subst he
    exact ⟨rfl, fun x h => by cases h⟩
  · rcases loopBody_cases c buf with ⟨h, _⟩ | ⟨_, _, ⟨name, h⟩ | h | h⟩
    · exact absurd h hexit
    · rw [h] at he
      simp at he
      subst he
      exact ⟨rfl, fun x h => by cases h⟩
    · rw [h] at he
      simp at he
    · rw [h] at he
      simp at he
      subst he
      exact ⟨rfl, fun x h => by cases h⟩

/-- What the loop sends carries the handle of the client and is no join. -/
theorem readLoop_sent (c : Client) (reads : List ReadResult) (e : Event)
    (he : Action.Send e ∈ (readLoop c reads).trace) :
    e.conn = c.Conn ∧ ∀ x, e ≠ Event.register x := by
  induction reads generalizing c with
  | nil => simp [readLoop] at he
  | cons r rest ih =>
    cases r with
    | err => simp [readLoop] at he
    | data buf =>
      cases hb : (loopBody c buf).returned with
      | true =>
        rw [readLoop_data_returned c buf rest hb] at he
        exact loopBody_sent c buf e he
      | false =>
        rw [readLoop_data_continue c buf rest hb] at he
        rcases List.mem_append.mp he with h | h
        · exact loopBody_sent c buf e h
        · have := ih (loopBody c buf).client h
          rw [loopBody_conn] at this
          exact this

/-- Every value sent for a connection carries its handle, and the only join among them
is the one of `main`, under the nickname "Anonymous". -/
theorem connectionEvents_mem (k : NetConn) (reads : List ReadResult) (e : Event)
    (he : e ∈ connectionEvents k reads) :
    e.conn = k ∧ ∀ x, e = Event.register x → x = ⟨k, "Anonymous".toList⟩ := by
  unfold connectionEvents at he
  rcases List.mem_append.mp he with h | h
  · simp only [accept, NewClient, newMessage, List.mem_cons, List.mem_singleton,
      List.not_mem_nil, or_false] at h
    rcases h with rfl | rfl
    · exact ⟨rfl, fun x hx => by cases hx; rfl⟩
    · exact ⟨rfl, fun x hx => by cases hx⟩
  · rw [mem_sent, handleRequest_eq] at h
    simp only [List.mem_append] at h
    rcases h with (h | h) | h
    · simp [greeting] at h
    · have := readLoop_sent (accept k).1 reads e h
      exact ⟨this.1, fun x hx => absurd hx (this.2 x)⟩
    · by_cases hr : (readLoop (accept k).1 reads).returned = true
      · simp only [hr, if_true, List.mem_singleton, Action.Send.injEq] at h
        subst h
        exact ⟨readLoop_conn (accept k).1 reads, fun x hx => by cases hx⟩
      · simp [hr] at h

/-- The loop of `Run` over two stretches of values. -/
theorem Run_loop_append (R : Registry) (a b : List Event) :
    Run.loop R (a ++ b)
      = ((Run.loop (Run.loop R a).1 b).1, (Run.loop R a).2 ++ (Run.loop (Run.loop R a).1 b).2) := by
  induction a generalizing R with
  | nil => simp [Run.loop]
  | cons e es ih => simp [Run.loop, ih, List.append_assoc]

/-- One turn of `Run` keeps the map free of repeated keys and of nicknames other than
"Anonymous", when the value received is no join under another nickname. -/
theorem Run_select_anonymous (R : Registry) (e : Event)
    (hanon : ∀ r ∈ R, r.Nickname = "Anonymous".toList) (hnodup : R.Nodup)
    (he : ∀ x, e = Event.register x → x.Nickname = "Anonymous".toList) :
    (∀ r ∈ (Run.select R e).1, r.Nickname = "Anonymous".toList) ∧ (Run.select R e).1.Nodup := by
  cases e with
  | register x =>
    by_cases hx : x ∈ R
    · simpa [Run.select, mapStore, hx] using ⟨hanon, hnodup⟩
    · simp only [Run.select, mapStore, hx, if_false]
      constructor
      · intro r hr
        rcases List.mem_append.mp hr with h | h
        · exact hanon r h
        · rw [List.mem_singleton.mp h]
          exact he x rfl
      · exact List.nodup_append.mpr ⟨hnodup, List.nodup_singleton x,
          fun a ha hb => hx (List.mem_singleton.mp hb ▸ ha)⟩
  | unregister x =>
    by_cases hx : x ∈ R
    · simp only [Run.select, hx, if_true, mapDelete]
      exact ⟨fun r hr => hanon r (List.mem_filter.mp hr).1, hnodup.filter _⟩
    · simpa [Run.select, hx] using ⟨hanon, hnodup⟩
  | broadcast msg => exact ⟨hanon, hnodup⟩

/-- The loop of `Run` keeps the map free of repeated keys and of nicknames other than
"Anonymous", when it receives no join under another nickname. -/
theorem Run_loop_anonymous (R : Registry) (es : List Event)
    (hanon : ∀ r ∈ R, r.Nickname = "Anonymous".toList) (hnodup : R.Nodup)
    (hes : ∀ e ∈ es, ∀ x, e = Event.register x → x.Nickname = "Anonymous".toList) :
    (∀ r ∈ (Run.loop R es).1, r.Nickname = "Anonymous".toList) ∧ (Run.loop R es).1.Nodup := by
  induction es generalizing R with
  | nil => exact ⟨hanon, hnodup⟩
  | cons e es ih =>
    have hstep := Run_select_anonymous R e hanon hnodup (hes e (List.mem_cons_self _ _))
    exact ih (Run.select R e).1 hstep.1 hstep.2
      (fun e' he' => hes e' (List.mem_cons_of_mem _ he'))

/-- Whatever `Run` receives of the values sent for connections, its map has no repeated
key and only the nickname "Anonymous". -/
theorem Run_anonymous (es : List Event)
    (hes : ∀ e ∈ es, ∃ k reads, e ∈ connectionEvents k reads) :
    (∀ r ∈ (Run es).1, r.Nickname = "Anonymous".toList) ∧ (Run es).1.Nodup := by
  apply Run_loop_anonymous [] es (by simp) List.nodup_nil
  intro e he x hx
  obtain ⟨k, reads, hk⟩ := hes e he
  rw [(connectionEvents_mem k reads e hk).2 x hx]

/-- Keys that all carry one nickname and do not repeat carry distinct handles. -/
theorem nodup_conn_of_same_nickname (R : Registry) (n : Str)
    (hanon : ∀ r ∈ R, r.Nickname = n) (hnodup : R.Nodup) :
    (R.map (fun r => r.Conn)).Nodup := by
  refine List.Nodup.map_on ?_ hnodup
  intro x hx y hy hxy
  cases x with
  | mk xc xn =>
    cases y with
    | mk yc yn =>
      have h1 : xn = n := hanon _ hx
      have h2 : yn = n := hanon _ hy
      simp only at hxy
      rw [hxy, h1, h2]

/-- With distinct handles, a handle has at most one entry. -/
theorem countP_conn_le_one (R : Registry) (h : NetConn)
    (hnodup : (R.map (fun r => r.Conn)).Nodup) :
    R.countP (fun r => decide (r.Conn = h)) ≤ 1 := by
  have hcount := List.nodup_iff_count_le_one.mp hnodup h
  have heq : (R.map (fun r => r.Conn)).count h = R.countP (fun r => decide (r.Conn = h)) := by
    rw [List.count, List.countP_map]
    apply List.countP_congr
    intro r _
    simp [Function.comp]
  omega

/-! ## Connecting, and the states `Run` can reach -/

/-- C12: let `Run` have received any values sent for connections, none of which left an
entry with the handle of a connection accepted now.  The values `main` sends for it are
its join and then the broadcast of "Anonymous connected"; handling the two, `Run` adds
the entry of the connection and writes that line once to each entry that was in the
map, so once to each handle that was in it, and nothing else: nothing to the new handle
and no close.  Its session opens with the three greeting lines, the only writes to the
new connection so far. -/
theorem C12_connect_scenario (es : List Event) (conn : NetConn)
    (hes : ∀ e ∈ es, ∃ k reads, e ∈ connectionEvents k reads)
    (hfresh : ∀ r ∈ (Run es).1, r.Conn ≠ conn) :
    (accept conn).2
      = [.register ⟨conn, "Anonymous".toList⟩,
         .broadcast ⟨⟨conn, "Anonymous".toList⟩, "Anonymous connected\n".toList⟩] ∧
    Run.loop (Run es).1 (accept conn).2
      = ((Run es).1 ++ [⟨conn, "Anonymous".toList⟩],
          (Run es).1.map (fun r => ConnOp.Write r.Conn "Anonymous connected\n".toList)) ∧
    (∀ r ∈ (Run es).1,
      (Run.loop (Run es).1 (accept conn).2).2.count
        (ConnOp.Write r.Conn "Anonymous connected\n".toList) = 1) ∧
    (∀ d, ConnOp.Write conn d ∉ (Run.loop (Run es).1 (accept conn).2).2) ∧
    (∀ h, ConnOp.Close h ∉ (Run.loop (Run es).1 (accept conn).2).2) ∧
    (handleRequest (accept conn).1 []).trace
      = [.Write "Hello from server\n".toList, .Write "Type /exit to quit\n".toList,
         .Write "Type /nick <name> to change your name\n".toList] ∧
    (∀ reads, ∃ more, (handleRequest (accept conn).1 reads).trace
      = [.Write "Hello from server\n".toList, .Write "Type /exit to quit\n".toList,
         .Write "Type /nick <name> to change your name\n".toList] ++ more) := by
  have hinv := Run_anonymous es hes
  have hconns := nodup_conn_of_same_nickname (Run es).1 _ hinv.1 hinv.2
  have hnew : (⟨conn, "Anonymous".toList⟩ : Client) ∉ (Run es).1 :=
    fun hmem => hfresh _ hmem rfl
  have hfilter : ((Run es).1 ++ [(⟨conn, "Anonymous".toList⟩ : Client)]).filter
      (fun r => decide (r.Conn ≠ conn)) = (Run es).1 := by
    rw [List.filter_append, List.filter_eq_self.mpr (fun r hr => by simpa using hfresh r hr)]
    simp
  have hloop : Run.loop (Run es).1 (accept conn).2
      = ((Run es).1 ++ [⟨conn, "Anonymous".toList⟩],
          (Run es).1.map (fun r => ConnOp.Write r.Conn "Anonymous connected\n".toList)) := by
    simp only [accept, NewClient, newMessage, Run.loop, Run.select, mapStore, hnew, if_false,
      rangeWrite_eq, hfilter, List.nil_append, List.append_nil]
    rfl
  refine ⟨rfl, hloop, ?_, ?_, ?_, rfl, fun reads => ⟨_, by
    rw [handleRequest_eq, List.append_assoc]; rfl⟩⟩
  · intro r hr
    rw [hloop]
    have hcount : ((Run es).1.map (fun r => ConnOp.Write r.Conn "Anonymous connected\n".toList)).count
        (ConnOp.Write r.Conn "Anonymous connected\n".toList)
          = (Run es).1.countP (fun x => decide (x.Conn = r.Conn)) := by
      rw [List.count, List.countP_map]
      apply List.countP_congr
      intro x _
      simp [Function.comp]
    have hle := countP_conn_le_one (Run es).1 r.Conn hconns
    have hpos : 0 < (Run es).1.countP (fun x => decide (x.Conn = r.Conn)) :=
      List.countP_pos_iff.mpr ⟨r, hr, by simp⟩
    show List.count _ (List.map _ _) = 1
    omega
  · intro d hmem
    rw [hloop] at hmem
    obtain ⟨r, hr, he⟩ := List.mem_map.mp hmem
    injection he with h1 _
    exact hfresh r hr h1
  · intro h hmem
    rw [hloop] at hmem
    simp at hmem

/-- C12 when handle 1 is connected and handle 2 is accepted: handle 1 gets the line
"Anonymous connected" once, handle 2 nothing. -/
theorem C12_connect_scenario_witness :
    Run.loop (Run (connectionEvents 1 [])).1 (accept 2).2
      = ((Run (connectionEvents 1 [])).1 ++ [⟨2, "Anonymous".toList⟩],
          (Run (connectionEvents 1 [])).1.map
            (fun r => ConnOp.Write r.Conn "Anonymous connected\n".toList)) ∧
    (Run.loop (Run (connectionEvents 1 [])).1 (accept 2).2).2
      = [ConnOp.Write 1 "Anonymous connected\n".toList] :=
  ⟨(C12_connect_scenario (connectionEvents 1 []) 2 (fun _ he => ⟨1, [], he⟩)
      (by decide)).2.1,
   by decide⟩

/-- C17: whatever values, sent for connections by `main` and by the sessions, `Run` has
received from the start, in whatever order, every entry of its map carries the nickname
"Anonymous", no key and no transport handle occurs twice, and so a broadcast handled in
that state writes a given text to a given handle at most once. -/
theorem C17_no_duplicate_delivery (es : List Event)
    (hes : ∀ e ∈ es, ∃ k reads, e ∈ connectionEvents k reads) :
    (∀ r ∈ (Run es).1, r.Nickname = "Anonymous".toList) ∧
    (Run es).1.Nodup ∧
    ((Run es).1.map (fun r => r.Conn)).Nodup ∧
    (∀ h, (Run es).1.countP (fun r => decide (r.Conn = h)) ≤ 1) ∧
    (∀ (msg : Message) (h : NetConn) (d : Str),
      (Run.select (Run es).1 (.broadcast msg)).2.count (ConnOp.Write h d) ≤ 1) ∧
    (∀ (msg : Message) (h : NetConn),
      (Run.select (Run es).1 (.broadcast msg)).2.countP
        (fun op => match op with
          | .Write h' _ => decide (h' = h)
          | .Close _ => false) ≤ 1) := by
  have hinv := Run_anonymous es hes
  have hconns := nodup_conn_of_same_nickname (Run es).1 _ hinv.1 hinv.2
  refine ⟨hinv.1, hinv.2, hconns, fun h => countP_conn_le_one _ h hconns, ?_, ?_⟩
  · intro msg h d
    have hcount := rangeWrite_count msg (Run es).1 h d
    have hle := countP_conn_le_one (Run es).1 h hconns
    show (rangeWrite msg (Run es).1).count (ConnOp.Write h d) ≤ 1
    rw [hcount]
    split <;> omega
  · intro msg h
    show (rangeWrite msg (Run es).1).countP _ ≤ 1
    rw [rangeWrite_eq, List.countP_map]
    have hsub : ((Run es).1.filter (fun r => decide (r.Conn ≠ msg.Client.Conn))).Sublist
        (Run es).1 := List.filter_sublist _
    have hle := countP_conn_le_one (Run es).1 h hconns
    have hmono := hsub.countP_le (fun r => decide (r.Conn = h))
    have hsame : ((fun op : ConnOp => match op with
          | .Write h' _ => decide (h' = h)
          | .Close _ => false) ∘ fun r : Client => ConnOp.Write r.Conn msg.Msg)
        = fun r => decide (r.Conn = h) := rfl
    rw [hsame]
    omega

/-- C17 after the values of two connections, the first of which renamed itself. -/
theorem C17_no_duplicate_delivery_witness :
    ((Run (connectionEvents 1 [.data "/nick Bob".toList]
        ++ connectionEvents 2 [.data "hi".toList])).1.map (fun r => r.Conn)).Nodup ∧
    (Run (connectionEvents 1 [.data "/nick Bob".toList]
        ++ connectionEvents 2 [.data "hi".toList])).1
      = [⟨1, "Anonymous".toList⟩, ⟨2, "Anonymous".toList⟩] :=
  ⟨(C17_no_duplicate_delivery
      (connectionEvents 1 [.data "/nick Bob".toList] ++ connectionEvents 2 [.data "hi".toList])
      (fun _ he => (List.mem_append.mp he).elim
        (fun h => ⟨1, _, h⟩) (fun h => ⟨2, _, h⟩))).2.2.1,
   by decide⟩

/-! ## When a leave cleans up -/

/-- The client value after a pass through the body of the loop that does not return:
renamed when the input is a successful rename, the same otherwise. -/
theorem loopBody_client (c : Client) (buf : Str) (hexit : TrimSpace buf ≠ "/exit".toList) :
    (loopBody c buf).client = ⟨c.Conn, (renameTarget buf).getD c.Nickname⟩ := by
  by_cases hp : HasPrefix (TrimSpace buf) "/nick".toList = true
  · cases hs : Split (TrimSpace buf) ' ' with
    | nil => exact absurd hs (splitWhere_ne_nil _ _)
    | cons first rest =>
      cases rest with
      | nil =>
        rw [loopBody_usage c buf first hp hs]
        simp only [renameTarget, hp, hs, if_true, Option.getD_none]
      | cons name more =>
        rw [loopBody_rename c buf first name more hp hs]
        simp only [renameTarget, hp, hs, if_true, Option.getD_some]
  · have hp' : HasPrefix (TrimSpace buf) "/nick".toList = false := by simpa using hp
    rw [loopBody_chat c buf hexit hp']
    simp only [renameTarget, hp', Bool.false_eq_true, if_false, Option.getD_none]

/-- The last element of a list with one more element in front. -/
theorem getLast?_cons_getD (a d : Str) (l : List Str) :
    ((a :: l).getLast?).getD d = (l.getLast?).getD a := by
  cases l with
  | nil => rfl
  | cons b l =>
    rw [List.getLast?_cons_cons]
    cases h : (b :: l).getLast? with
    | none => simp at h
    | some v => rfl

/-- The nickname of a session is the target of its last successful rename. -/
theorem readLoop_nickname (c : Client) (reads : List ReadResult) :
    (readLoop c reads).client.Nickname = lastRename c.Nickname reads := by
  induction reads generalizing c with
  | nil => rfl
  | cons r rest ih =>
    cases r with
    | err => rfl
    | data buf =>
      by_cases hexit : TrimSpace buf = "/exit".toList
      · have hb := (loopBody_returned_iff c buf).mpr hexit
        rw [readLoop_data_returned c buf rest hb, loopBody_exit c buf hexit]
        simp [lastRename, interpreted, hexit]
      · have hb : (loopBody c buf).returned = false := by
          cases h : (loopBody c buf).returned with
          | false => rfl
          | true => exact absurd ((loopBody_returned_iff c buf).mp h) hexit
        rw [readLoop_data_continue c buf rest hb]
        show (readLoop (loopBody c buf).client rest).client.Nickname = _
        rw [ih, loopBody_client c buf hexit]
        simp only [lastRename, interpreted, hexit, if_false, List.filterMap_cons]
        cases ht : renameTarget buf with
        | none => simp
        | some name => simp [getLast?_cons_getD]

/-- One turn of `Run` on a value with another handle keeps an entry, does not close its
handle, and writes to it when the value is a broadcast. -/
theorem Run_select_keeps (R : Registry) (e : Event) (x : Client) (hx : x ∈ R)
    (he : e.conn ≠ x.Conn) :
    x ∈ (Run.select R e).1 ∧ ConnOp.Close x.Conn ∉ (Run.select R e).2 ∧
      ∀ msg, e = Event.broadcast msg → ConnOp.Write x.Conn msg.Msg ∈ (Run.select R e).2 := by
  cases e with
  | register y =>
    refine ⟨?_, by simp [Run.select], fun msg h => by cases h⟩
    by_cases hy : y ∈ R
    · simpa [Run.select, mapStore, hy] using hx
    · simp [Run.select, mapStore, hy, hx]
  | unregister y =>
    have hne : x ≠ y := by
      rintro rfl
      exact he rfl
    have hclose : y.Conn ≠ x.Conn := he
    by_cases hy : y ∈ R
    · refine ⟨?_, ?_, fun msg h => by cases h⟩
      · simp only [Run.select, hy, if_true, mapDelete]
        exact List.mem_filter.mpr ⟨hx, by simpa using hne⟩
      · simp only [Run.select, hy, if_true, List.mem_singleton, ConnOp.Close.injEq]
        exact fun h => hclose h.symm
    · exact ⟨by simpa [Run.select, hy] using hx, by simp [Run.select, hy],
        fun msg h => by cases h⟩
  | broadcast m =>
    refine ⟨hx, ?_, ?_⟩
    · simp [Run.select, rangeWrite_eq]
    · intro msg h
      have hm : m = msg := by injection h
      rw [← hm]
      exact mem_rangeWrite m R x hx (fun h => he h.symm)

/-- The loop of `Run` on values with other handles keeps an entry, never closes its
handle, and writes every broadcast among them to it. -/
theorem Run_loop_keeps (R : Registry) (later : List Event) (x : Client) (hx : x ∈ R)
    (hlater : ∀ e ∈ later, e.conn ≠ x.Conn) :
    x ∈ (Run.loop R later).1 ∧ ConnOp.Close x.Conn ∉ (Run.loop R later).2 ∧
      ∀ msg, Event.broadcast msg ∈ later →
        ConnOp.Write x.Conn msg.Msg ∈ (Run.loop R later).2 := by
  induction later generalizing R with
  | nil => exact ⟨hx, by simp [Run.loop], fun msg h => by cases h⟩
  | cons e es ih =>
    have hstep := Run_select_keeps R e x hx (hlater e (List.mem_cons_self _ _))
    have hrest := ih (Run.select R e).1 hstep.1
      (fun e' he' => hlater e' (List.mem_cons_of_mem _ he'))
    refine ⟨hrest.1, ?_, ?_⟩
    · simp only [Run.loop, List.mem_append, not_or]
      exact ⟨hstep.2.1, hrest.2.1⟩
    · intro msg hmsg
      simp only [Run.loop, List.mem_append]
      rcases List.mem_cons.mp hmsg with h | h
      · exact Or.inl (hstep.2.2 msg h.symm)
      · exact Or.inr (hrest.2.2 msg h)

/-- C16: every connection is joined under the nickname "Anonymous" and the map is
keyed by the whole client value.  Let `Run` have received any values sent for
connections, with the entry of a connection in its map, and let the session of that
connection have returned with client value `c`: its last send is the leave of `c`,
which carries the handle of the connection and, as nickname, the target of the last
successful rename of the session ("Anonymous" when there was none).  Handling that
leave, `Run` removes every entry with that handle and closes the handle exactly when
the nickname of `c` is "Anonymous".  Otherwise the leave changes nothing, and whatever
`Run` receives later from other connections, the entry stays, the handle is not closed,
and every broadcast among these values is written to it. -/
theorem C16_cleanup_condition (es : List Event) (conn : NetConn) (reads : List ReadResult)
    (c : Client) (later : List Event)
    (hes : ∀ e ∈ es, ∃ k rs, e ∈ connectionEvents k rs)
    (hmem : (⟨conn, "Anonymous".toList⟩ : Client) ∈ (Run es).1)
    (hret : (handleRequest (accept conn).1 reads).returned = true)
    (hc : (handleRequest (accept conn).1 reads).client = c)
    (hlater : ∀ e ∈ later, e.conn ≠ conn) :
    (accept conn).1 = ⟨conn, "Anonymous".toList⟩ ∧
    (accept conn).2.head? = some (.register ⟨conn, "Anonymous".toList⟩) ∧
    (sent (handleRequest (accept conn).1 reads).trace).getLast? = some (.unregister c) ∧
    c.Conn = conn ∧
    c.Nickname = lastRename "Anonymous".toList reads ∧
    (((∀ r ∈ (Run.select (Run es).1 (.unregister c)).1, r.Conn ≠ conn) ∧
        ConnOp.Close conn ∈ (Run.select (Run es).1 (.unregister c)).2)
      ↔ c.Nickname = "Anonymous".toList) ∧
    (c.Nickname = "Anonymous".toList →
      Run.select (Run es).1 (.unregister c)
        = (mapDelete (Run es).1 ⟨conn, "Anonymous".toList⟩, [ConnOp.Close conn])) ∧
    (c.Nickname ≠ "Anonymous".toList →
      Run.select (Run es).1 (.unregister c) = ((Run es).1, []) ∧
      (⟨conn, "Anonymous".toList⟩ : Client) ∈ (Run.loop (Run es).1 (.unregister c :: later)).1 ∧
      ConnOp.Close conn ∉ (Run.loop (Run es).1 (.unregister c :: later)).2 ∧
      ∀ msg, Event.broadcast msg ∈ later →
        ConnOp.Write conn msg.Msg ∈ (Run.loop (Run es).1 (.unregister c :: later)).2) := by
  have hanon := (Run_anonymous es hes).1
  have hret' : (readLoop (accept conn).1 reads).returned = true := hret
  have hconn : c.Conn = conn := by
    rw [← hc]
    exact readLoop_conn (accept conn).1 reads
  have hname : c.Nickname = lastRename "Anonymous".toList reads := by
    rw [← hc]
    exact readLoop_nickname (accept conn).1 reads
  have hlast : (sent (handleRequest (accept conn).1 reads).trace).getLast?
      = some (.unregister c) := by
    have hcl : (readLoop (accept conn).1 reads).client = c := hc
    rw [handleRequest_eq]
    simp only [hret', if_true, hcl]
    rw [sent_append]
    show (sent _ ++ [Event.unregister c]).getLast? = _
    simp
  have hyes : c.Nickname = "Anonymous".toList →
      Run.select (Run es).1 (.unregister c)
        = (mapDelete (Run es).1 ⟨conn, "Anonymous".toList⟩, [ConnOp.Close conn]) := by
    intro hn
    have hceq : c = ⟨conn, "Anonymous".toList⟩ := by
      cases c with
      | mk cc cn =>
        simp only at hconn hn
        rw [hconn, hn]
    rw [hceq]
    simp only [Run.select, hmem, if_true]
  have hno : c.Nickname ≠ "Anonymous".toList →
      Run.select (Run es).1 (.unregister c) = ((Run es).1, []) := by
    intro hn
    have hcmem : c ∉ (Run es).1 := fun h => hn (hanon c h)
    simp [Run.select, hcmem]
  refine ⟨rfl, rfl, hlast, hconn, hname, ?_, hyes, ?_⟩
  · constructor
    · rintro ⟨_, hclose⟩
      by_contra hn
      rw [hno hn] at hclose
      simp at hclose
    · intro hn
      rw [hyes hn]
      refine ⟨?_, by simp⟩
      intro r hr hrc
      have hr' := List.mem_filter.mp hr
      have hrn := hanon r hr'.1
      have hreq : r = ⟨conn, "Anonymous".toList⟩ := by
        cases r with
        | mk rc rn =>
          simp only at hrc hrn
          rw [hrc, hrn]
      simp [hreq] at hr'
  · intro hn
    have hkeep := Run_loop_keeps (Run es).1 later ⟨conn, "Anonymous".toList⟩ hmem hlater
    have hstep : Run.loop (Run es).1 (.unregister c :: later)
        = Run.loop (Run es).1 later := by
      simp [Run.loop, hno hn]
    rw [hstep]
    exact ⟨hno hn, hkeep⟩

/-- C16 for the session of handle 1 that reads "/nick Alice" and "/exit", with handles 1
and 2 connected: its leave changes nothing, and a later broadcast of handle 2 is still
written to handle 1. -/
theorem C16_cleanup_condition_witness :
    Run.select (Run (connectionEvents 1 [] ++ connectionEvents 2 [])).1
        (.unregister ⟨1, "Alice".toList⟩)
      = ((Run (connectionEvents 1 [] ++ connectionEvents 2 [])).1, []) ∧
    ConnOp.Write 1 "Anonymous: hi\n".toList
      ∈ (Run.loop (Run (connectionEvents 1 [] ++ connectionEvents 2 [])).1
          (.unregister ⟨1, "Alice".toList⟩
            :: [.broadcast ⟨⟨2, "Anonymous".toList⟩, "Anonymous: hi\n".toList⟩])).2 :=
  ⟨((C16_cleanup_condition (connectionEvents 1 [] ++ connectionEvents 2 []) 1
      [.data "/nick Alice".toList, .data "/exit".toList] ⟨1, "Alice".toList⟩
      [.broadcast ⟨⟨2, "Anonymous".toList⟩, "Anonymous: hi\n".toList⟩]
      (fun _ he => (List.mem_append.mp he).elim (fun h => ⟨1, _, h⟩) (fun h => ⟨2, _, h⟩))
      (by decide) (by decide) (by decide) (by decide)).2.2.2.2.2.2.2 (by decide)).1,
   ((C16_cleanup_condition (connectionEvents 1 [] ++ connectionEvents 2 []) 1
      [.data "/nick Alice".toList, .data "/exit".toList] ⟨1, "Alice".toList⟩
      [.broadcast ⟨⟨2, "Anonymous".toList⟩, "Anonymous: hi\n".toList⟩]
      (fun _ he => (List.mem_append.mp he).elim (fun h => ⟨1, _, h⟩) (fun h => ⟨2, _, h⟩))
      (by decide) (by decide) (by decide) (by decide)).2.2.2.2.2.2.2 (by decide)).2.2.2
      _ (List.mem_singleton.mpr rfl)⟩

end Chat
